import Mathlib

/-!
# Verification of the tabular-transform repository

Shallow embedding of the Python functions in `submissions/python_task_1.py`
and `submissions/python_task_2.py`, together with proofs of the specified
properties.  Tables are modelled as typed lists of rows; pandas `NaN` cells
are modelled as `Option.none`; machine floats are modelled as `ℚ`; the
"no path" sentinel of the distance matrix is `(⊤ : WithTop ℚ)`.
-/

/-! ## Task 1: `get_type_count` (Categorizer) -/

/-- Lexicographic comparison of character lists (Python's string ordering). -/
def charListLe : List Char → List Char → Bool
  | [], _ => true
  | _ :: _, [] => false
  | a :: as, b :: bs => if a < b then true else if b < a then false else charListLe as bs

/-- Lexicographic string comparison, the order used by Python's `sorted`. -/
def strLe (a b : String) : Bool := charListLe a.data b.data

/-- The label `pd.cut` assigns to a numeric `car` value: bins
`[-inf, 15, 25, inf]` with `right=False`, labels `low`/`medium`/`high`. -/
def cutLabel (q : ℚ) : String :=
  if q < 15 then "low" else if q < 25 then "medium" else "high"

/-- The fixed category list of the `pd.cut` call in `get_type_count`. -/
def carCategories : List String := ["low", "medium", "high"]

/-- `get_type_count` from `python_task_1.py`: cut the `car` column into the
three categories, count per category (`value_counts` on a categorical column
reports every category, `NaN` source values excluded), convert to a mapping
sorted by key.  The `car` column is a list of optional rationals
(`none` = `NaN`). -/
def get_type_count (car : List (Option ℚ)) : List (String × ℕ) :=
  let labels := car.filterMap (fun v => v.map cutLabel)
  let counts := carCategories.map (fun c => (c, labels.count c))
  counts.insertionSort (fun a b => strLe a.1 b.1)

/-! ## Task 2: `find_ids_within_ten_percentage_threshold` (ToleranceFilter) -/

/-- A row of the unrolled edge table used by task 2. -/
structure TollRow where
  id_start : ℕ
  id_end : ℕ
  distance : ℚ
deriving DecidableEq

/-- `find_ids_within_ten_percentage_threshold` from `python_task_2.py`:
mean of the reference rows' distances (an empty selection has a `NaN` mean,
with which every comparison is false, modelled by the `none` branch), then
keep the rows with a different `id_start` whose distance lies in
`[0.9 * mean, 1.1 * mean]`. -/
def find_ids_within_ten_percentage_threshold
    (df : List TollRow) (reference_id : ℕ) : List TollRow :=
  let refRows := df.filter (fun r => r.id_start = reference_id)
  if refRows = [] then []
  else
    let average_distance : ℚ := (refRows.map (·.distance)).sum / refRows.length
    let lower_threshold := 0.9 * average_distance
    let upper_threshold := 1.1 * average_distance
    df.filter (fun r =>
      r.id_start ≠ reference_id ∧
      lower_threshold ≤ r.distance ∧ r.distance ≤ upper_threshold)

/-! ## Task 1: `generate_car_matrix` (MatrixBuilder) -/

/-- A row of the `id_1`/`id_2`/`car` input table; a `NaN` car value is
`none`. -/
structure PRow where
  id_1 : ℕ
  id_2 : ℕ
  car : Option ℚ
deriving DecidableEq

/-- Sorted list of the distinct elements of `l` (a pandas axis index). -/
def sortedDedup (l : List ℕ) : List ℕ := l.dedup.insertionSort (· ≤ ·)

/-- A pandas `DataFrame` used as a labelled matrix: row labels, column
labels, and the cell contents.  `cell a b = none` means either "no such
cell" or a `NaN` entry; cells carried by the table itself are always
`some` unless explicitly set to `NaN`. -/
structure CarMatrix where
  rowLabels : List ℕ
  colLabels : List ℕ
  cell : ℕ → ℕ → Option ℚ

/-- `df.pivot(index='id_1', columns='id_2', values='car').fillna(0)`:
fails (returns `none`) when an `(id_1, id_2)` pair is duplicated; the index
is the sorted distinct `id_1` set, the columns the sorted distinct `id_2`
set; a cell holds the unique matching row's value (`NaN` filled with 0) or
0 when no row matches; positions outside the label sets are not cells. -/
def pivotMatrix (df : List PRow) : CarMatrix :=
  { rowLabels := sortedDedup (df.map (·.id_1)),
    colLabels := sortedDedup (df.map (·.id_2)),
    cell := fun a b =>
      if a ∈ df.map (·.id_1) ∧ b ∈ df.map (·.id_2) then
        some (match df.find? (fun r => r.id_1 = a ∧ r.id_2 = b) with
              | some r => r.car.getD 0
              | none => 0)
      else none }

/-- The guarded pivot: `pd.pivot` raises on duplicate (index, column)
pairs. -/
def pivotCar (df : List PRow) : Option CarMatrix :=
  if (df.map (fun r => (r.id_1, r.id_2))).Nodup then some (pivotMatrix df)
  else none

/-- One step of the loop `car_matrix.at[index, index] = 0`: writing to a
column label that does not exist appends that column (its other cells are
`NaN`, i.e. stay `none`). -/
def setDiagZero (m : CarMatrix) (i : ℕ) : CarMatrix :=
  { rowLabels := m.rowLabels,
    colLabels := if i ∈ m.colLabels then m.colLabels else m.colLabels ++ [i],
    cell := fun a b => if a = i ∧ b = i then some 0 else m.cell a b }

/-- `generate_car_matrix` from `python_task_1.py`: pivot, fill missing
combinations with 0, then zero the diagonal for every index label. -/
def generate_car_matrix (df : List PRow) : Option CarMatrix :=
  (pivotCar df).map (fun m => m.rowLabels.foldl setDiagZero m)

/-! ## Task 2: `unroll_distance_matrix` (MatrixUnroller) -/

/-- A row of the unrolled table; the looked-up cell value may be `NaN`. -/
structure URow where
  id_start : ℕ
  id_end : ℕ
  distance : Option ℚ
deriving DecidableEq

/-- The list comprehension
`[(start, end) for start in df.index for end in df.index if start != end]`. -/
def orderedPairs (l : List ℕ) : List (ℕ × ℕ) :=
  l.flatMap (fun s => (l.filter (fun e => e ≠ s)).map (fun e => (s, e)))

/-- Look up `df.at[start, end]` for each pair in turn; `.at` raises
(modelled by `none`) when the second label is not a column label. -/
def unrollRows (m : CarMatrix) : List (ℕ × ℕ) → Option (List URow)
  | [] => some []
  | p :: ps =>
    if p.2 ∈ m.colLabels then
      (unrollRows m ps).map (fun rest => URow.mk p.1 p.2 (m.cell p.1 p.2) :: rest)
    else none

/-- `unroll_distance_matrix` from `python_task_2.py`: one row per ordered
pair `(start, end)` of distinct index labels, in nested loop order, holding
`df.at[start, end]`. -/
def unroll_distance_matrix (m : CarMatrix) : Option (List URow) :=
  unrollRows m (orderedPairs m.rowLabels)

/-- Renaming of an unrolled row to the `MatrixBuilder` column contract. -/
def URow.toPRow (r : URow) : PRow := ⟨r.id_start, r.id_end, r.distance⟩

/-- The matrix `generate_car_matrix` returns when `pivot` succeeds. -/
def builtMatrix (df : List PRow) : CarMatrix :=
  (pivotMatrix df).rowLabels.foldl setDiagZero (pivotMatrix df)

/-- The row list `unroll_distance_matrix` returns when every lookup
succeeds. -/
def unrolledOf (df : List PRow) : List URow :=
  (orderedPairs (builtMatrix df).rowLabels).map
    (fun p => URow.mk p.1 p.2 ((builtMatrix df).cell p.1 p.2))

/-! ## Task 2: `calculate_time_based_toll_rates` (TimeWindowExpander) -/

/-- `strftime('%A')` day names, indexed by Python weekday number modulo 7
(`0 = Monday`). -/
def dayName (n : ℕ) : String :=
  ["Monday", "Tuesday", "Wednesday", "Thursday", "Friday",
   "Saturday", "Sunday"].getD (n % 7) ""

/-- An output row of `calculate_time_based_toll_rates`; times of day are in
seconds after midnight. -/
structure TimedRow where
  id_start : ℕ
  id_end : ℕ
  start_day : String
  start_time : ℕ
  end_day : String
  end_time : ℕ
  distance : ℚ
deriving DecidableEq

/-- The weekday discount windows of the source, as
(start second, end second, factor). -/
def weekday_discounts : List (ℕ × ℕ × ℚ) :=
  [(0, 36000, 0.8), (36000, 64800, 1.2), (64800, 86399, 0.8)]

/-- The weekend discount factor of the source. -/
def weekend_discount : ℚ := 0.7

/-- Lexicographic order on composite keys, as used by `groupby` key
sorting. -/
def keyLe (a b : ℕ × ℕ) : Bool := a.1 < b.1 || (a.1 = b.1 && a.2 ≤ b.2)

/-- The distinct `(id_start, id_end)` keys of the table in the sorted order
`groupby` iterates them. -/
def tollKeys (rows : List TollRow) : List (ℕ × ℕ) :=
  ((rows.map (fun r => (r.id_start, r.id_end))).dedup).insertionSort
    (fun a b => keyLe a b)

/-- `calculate_time_based_toll_rates` from `python_task_2.py`.  The call
`datetime.combine(datetime.today(), t) + timedelta(days=day)` anchors the
seven generated days at the date of the call, so the weekday of
`datetime.today()` enters the computation; it is the explicit parameter
`today` (Python weekday number, `0 = Monday`).  For each group key (sorted)
and each of 7 day offsets, days 0–4 get the three weekday windows and days
5–6 one whole-day window, each row carrying the group ids, the window
bounds, the day names and the group mean distance times the factor. -/
def calculate_time_based_toll_rates (today : ℕ) (input_df : List TollRow) :
    List TimedRow :=
  (tollKeys input_df).flatMap (fun k =>
    let g := input_df.filter (fun r => (r.id_start, r.id_end) = k)
    let meanDist : ℚ := (g.map (·.distance)).sum / g.length
    (List.range 7).flatMap (fun day =>
      (if day < 5 then weekday_discounts else [(0, 86399, weekend_discount)]).map
        (fun w =>
          { id_start := ((g.head?).map (·.id_start)).getD 0,
            id_end := ((g.head?).map (·.id_end)).getD 0,
            start_day := dayName (today + day),
            start_time := w.1,
            end_day := dayName (today + day),
            end_time := w.2.1,
            distance := meanDist * w.2.2 })))

/-- The invocation-date-independent part of an output row: everything but
the two day-name columns. -/
def TimedRow.eraseDays (r : TimedRow) : ℕ × ℕ × ℕ × ℕ × ℚ :=
  (r.id_start, r.id_end, r.start_time, r.end_time, r.distance)

/-! ## Task 1: `time_check` (CompletenessChecker) -/

/-- A timestamp as produced by `pd.to_datetime`: a weekday (`0 = Monday`)
and a time of day in microseconds after midnight. -/
structure Ts where
  day : Fin 7
  micro : ℕ
deriving DecidableEq

/-- A row of the dataset-2 table consumed by `time_check`. -/
structure TCRow where
  id : ℕ
  id_2 : ℕ
  startDay : String
  startTime : String
  endDay : String
  endTime : String
deriving DecidableEq

/-- Python `set(a) == set(b)`. -/
def listSetEq {α : Type} [DecidableEq α] (a b : List α) : Bool :=
  a.all (· ∈ b) && b.all (· ∈ a)

/-- The full-week day-name set of the source. -/
def weekNames : List String :=
  ["Monday", "Tuesday", "Wednesday", "Thursday", "Friday",
   "Saturday", "Sunday"]

/-- The times of day `s, s+1, ..., s+n-1` seconds after midnight, in
microseconds. -/
def secondsFrom : ℕ → ℕ → List (Option ℕ)
  | _, 0 => []
  | s, n + 1 => some (s * 1000000) :: secondsFrom (s + 1) n

/-- `pd.date_range('00:00:00', '23:59:59', freq='1S').time`: all 86400
second-granularity times of day (in microseconds). -/
def fullSeconds : List (Option ℕ) := secondsFrom 0 86400

/-- `check_timestamp_completeness` from `python_task_1.py`, applied to the
group's parsed start timestamps (`none` = `NaT`): the distinct `start_day`
values must equal the seven-day set and the distinct `start_time` values
must equal the 86400 one-second times. -/
def check_timestamp_completeness (g : List (Option Ts)) : Bool :=
  listSetEq (g.map (Option.map (fun t => dayName t.day.val)))
      (weekNames.map some) &&
    listSetEq (g.map (Option.map Ts.micro)) fullSeconds

/-- The distinct `(id, id_2)` keys in `groupby` order. -/
def tcKeys (rows : List TCRow) : List (ℕ × ℕ) :=
  ((rows.map (fun r => (r.id, r.id_2))).dedup).insertionSort
    (fun a b => keyLe a b)

/-- `time_check` from `python_task_1.py`: parse each row's start
day+time (`pd.to_datetime(..., errors='coerce')` is the abstract parameter
`parse`, `none` = `NaT`), group by the composite key, and apply
`check_timestamp_completeness` per group. -/
def time_check (parse : String → String → Option Ts) (rows : List TCRow) :
    List ((ℕ × ℕ) × Bool) :=
  (tcKeys rows).map (fun k =>
    (k, check_timestamp_completeness
      ((rows.filter (fun r => (r.id, r.id_2) = k)).map
        (fun r => parse r.startDay r.startTime))))

/-- A concrete parse function for evaluating `time_check`: day label
`"d0"`…`"d6"` parses to weekday 0…6 at second 1…7 of the day. -/
def parseW : String → String → Option Ts := fun d _ =>
  (weekNames.findIdx? (· = d)).bind (fun i =>
    if h : i < 7 then some ⟨⟨i, h⟩, (i + 1) * 1000000⟩ else none)

/-- A concrete seven-row group covering all weekday names but only seven
distinct one-second times. -/
def tcRowsW : List TCRow :=
  weekNames.map (fun d => ⟨1, 1, d, "00:00:01", d, "00:00:02"⟩)

/-! ## Frame model: the effect of each function on the caller's table

pandas tables are passed by reference, so an in-place column assignment
`df[c] = v` inside a function is visible to the caller.  A table is
modelled column-major (its natural pandas form): an ordered association
list of column names to cell lists. -/

/-- A cell of an untyped pandas column. -/
inductive Val where
  | num (q : ℚ)
  | str (s : String)
  | ts (t : Ts)
  | tod (n : ℕ)
  | nan
deriving DecidableEq

/-- A pandas `DataFrame`, column-major. -/
structure DF where
  cols : List (String × List Val)
deriving DecidableEq

/-- The column-name list of the table. -/
def DF.names (df : DF) : List String := df.cols.map Prod.fst

/-- `df[c]` (first matching column; `none` = `KeyError`). -/
def DF.getCol (df : DF) (c : String) : Option (List Val) :=
  (df.cols.find? (fun p => p.1 = c)).map Prod.snd

/-- `df[c] = vs`: overwrite the column in place when present, else append
it on the right. -/
def DF.setCol (df : DF) (c : String) (vs : List Val) : DF :=
  if (df.cols.find? (fun p => p.1 = c)).isSome then
    ⟨df.cols.map (fun p => if p.1 = c then (c, vs) else p)⟩
  else ⟨df.cols ++ [(c, vs)]⟩

/-- The `pd.cut` call of `get_type_count` as a cell map. -/
def cutVal : Val → Val
  | Val.num q => Val.str (cutLabel q)
  | _ => Val.nan

/-- `df['distance'] * coefficient`; non-numeric cells raise. -/
def mulVal (c : ℚ) : Val → Option Val
  | Val.num q => some (Val.num (q * c))
  | _ => none

/-- The fixed coefficient table of `calculate_toll_rate`. -/
def rate_coefficients : List (String × ℚ) :=
  [("moto", 0.8), ("car", 1.2), ("rv", 1.5), ("bus", 2.2), ("truck", 3.6)]

/-- A string cell, as consumed by `df['startDay'] + ' ' + df['startTime']`;
anything else raises. -/
def asStr : Val → Option String
  | Val.str s => some s
  | _ => none

/-- A parsed timestamp as a cell (`NaT` = `Val.nan`). -/
def tsVal : Option Ts → Val
  | some t => Val.ts t
  | none => Val.nan

/-- `.dt.day_name()` on a timestamp cell. -/
def dayVal : Val → Val
  | Val.ts t => Val.str (dayName t.day.val)
  | _ => Val.nan

/-- `.dt.time` on a timestamp cell. -/
def todVal : Val → Val
  | Val.ts t => Val.tod t.micro
  | _ => Val.nan

namespace Frame

/-- `generate_car_matrix` never assigns into `df` (`pivot` and `fillna`
allocate a new frame; the diagonal loop writes to that new frame), so the
caller's table is returned unchanged. -/
def generate_car_matrix (df : DF) : DF := df

/-- `get_type_count` executes `df['car_type'] = pd.cut(df['car'], ...)`:
the caller's table gains (or has overwritten) a `car_type` column holding
the bucket label of each `car` cell; a missing `car` column raises before
any write. -/
def get_type_count (df : DF) : Option DF :=
  (df.getCol "car").map (fun vs => df.setCol "car_type" (vs.map cutVal))

/-- `get_bus_indexes` only reads `df['bus']`; no in-place write. -/
def get_bus_indexes (df : DF) : DF := df

/-- `filter_routes` only reads via `groupby`; no in-place write. -/
def filter_routes (df : DF) : DF := df

/-- `multiply_matrix` builds its result with `applymap`, which allocates;
no in-place write. -/
def multiply_matrix (df : DF) : DF := df

/-- `check_timestamp_completeness` only reads its group; no in-place
write. -/
def check_timestamp_completeness (df : DF) : DF := df

/-- The loop of `calculate_toll_rate`: for each vehicle type in order,
`df[vehicle_type] = df['distance'] * coefficient` (a missing or
non-numeric `distance` column raises on the first iteration, before any
write). -/
def tollLoop : List (String × ℚ) → DF → Option DF
  | [], df => some df
  | (n, c) :: rest, df =>
    match df.getCol "distance" with
    | none => none
    | some vs =>
      match vs.mapM (mulVal c) with
      | none => none
      | some vs2 => tollLoop rest (df.setCol n vs2)

/-- `calculate_toll_rate` from `python_task_2.py` as a frame effect. -/
def calculate_toll_rate (df : DF) : Option DF := tollLoop rate_coefficients df

/-- `time_check` executes four in-place assignments on the caller's table:
`start_timestamp`, `end_timestamp`, `start_day`, `start_time`; a missing
or non-string source column raises before any write. -/
def time_check (parse : String → String → Option Ts) (df : DF) : Option DF :=
  match df.getCol "startDay", df.getCol "startTime",
      df.getCol "endDay", df.getCol "endTime" with
  | some sd, some st, some ed, some et =>
    match sd.mapM asStr, st.mapM asStr, ed.mapM asStr, et.mapM asStr with
    | some sds, some sts, some eds, some ets =>
      let sv := List.zipWith (fun a b => tsVal (parse a b)) sds sts
      let ev := List.zipWith (fun a b => tsVal (parse a b)) eds ets
      some ((((df.setCol "start_timestamp" sv).setCol "end_timestamp" ev).setCol
          "start_day" (sv.map dayVal)).setCol "start_time" (sv.map todVal))
    | _, _, _, _ => none
  | _, _, _, _ => none

/-- `calculate_distance_matrix` builds a graph from row reads; no in-place
write. -/
def calculate_distance_matrix (df : DF) : DF := df

/-- `unroll_distance_matrix` assigns only into its freshly created
`unrolled_df`; the input is not written. -/
def unroll_distance_matrix (df : DF) : DF := df

/-- `find_ids_within_ten_percentage_threshold` only reads and filters; no
in-place write. -/
def find_ids_within_ten_percentage_threshold (df : DF) : DF := df

/-- `calculate_time_based_toll_rates` appends to its own
`new_columns_data` and builds a fresh frame; the input is not written. -/
def calculate_time_based_toll_rates (df : DF) : DF := df

end Frame

/-! ## Task 2: `calculate_distance_matrix` (DistanceGraphResolver) -/

/-- An edge record of the distance table. -/
structure Edge where
  id_start : ℕ
  id_end : ℕ
  distance : ℚ
deriving DecidableEq

/-- `networkx` node insertion: a node enters the node list at its first
occurrence. -/
def insertNode (ns : List ℕ) (v : ℕ) : List ℕ := if v ∈ ns then ns else ns ++ [v]

/-- `g.nodes` after the edge-insertion loop, in first-seen order. -/
def gNodes (edges : List Edge) : List ℕ :=
  edges.foldl (fun ns e => insertNode (insertNode ns e.id_start) e.id_end) []

/-- `g.add_edge(u, v, weight=q)`: overwrite the stored weight of the arc
`(u, v)`. -/
def addEdge (w : ℕ → ℕ → WithTop ℚ) (u v : ℕ) (q : ℚ) : ℕ → ℕ → WithTop ℚ :=
  fun a b => if a = u ∧ b = v then (q : WithTop ℚ) else w a b

/-- The adjacency function after the loop of `calculate_distance_matrix`:
each row inserts its edge in both directions, later rows overwriting
earlier ones; absent arcs weigh `⊤` (numpy `inf`, the "no path"
sentinel). -/
def gWeight (edges : List Edge) : ℕ → ℕ → WithTop ℚ :=
  edges.foldl
    (fun w e => addEdge (addEdge w e.id_start e.id_end e.distance)
      e.id_end e.id_start e.distance)
    (fun _ _ => ⊤)

/-- The matrix `floyd_warshall_numpy` starts from: the adjacency with the
diagonal overwritten to 0 (`np.fill_diagonal(A, 0)`). -/
def fwInit (edges : List Edge) : ℕ → ℕ → WithTop ℚ :=
  fun i j => if i = j then 0 else gWeight edges i j

/-- One step `A = np.minimum(A, A[k, :] + A[:, k])` of
`floyd_warshall_numpy` (both operands read the pre-step matrix). -/
def fwStep (w : ℕ → ℕ → WithTop ℚ) (k : ℕ) : ℕ → ℕ → WithTop ℚ :=
  fun i j => min (w i j) (w i k + w k j)

/-- `calculate_distance_matrix` from `python_task_2.py`: the
Floyd–Warshall iteration over every node of the graph; the returned frame
is this matrix restricted to the node list as both index and columns. -/
def calculate_distance_matrix (edges : List Edge) : ℕ → ℕ → WithTop ℚ :=
  (gNodes edges).foldl fwStep (fwInit edges)

/-- A walk through the weighted graph: `IsWalkFrom w i j p` holds when `p`
is the list of successive vertices after `i`, each step uses a present
arc, and the walk ends at `j`. -/
def IsWalkFrom (w : ℕ → ℕ → WithTop ℚ) : ℕ → ℕ → List ℕ → Prop
  | i, j, [] => i = j
  | i, j, v :: p => w i v ≠ ⊤ ∧ IsWalkFrom w v j p

/-- The total weight of a walk. -/
def walkCost (w : ℕ → ℕ → WithTop ℚ) : ℕ → List ℕ → WithTop ℚ
  | _, [] => 0
  | i, v :: p => w i v + walkCost w v p

/-- The Floyd–Warshall loop invariant, after the intermediate nodes `K`
have been processed: the matrix is symmetric, nonnegative, zero on the
diagonal, bounded by the start matrix, a lower bound on every walk with
interior vertices in `K`, and attained by such a walk wherever finite. -/
def FWInv (edges : List Edge) (K : List ℕ) (d : ℕ → ℕ → WithTop ℚ) : Prop :=
  (∀ i j, d i j = d j i) ∧
  (∀ i j, 0 ≤ d i j) ∧
  (∀ i, d i i = 0) ∧
  (∀ i j, d i j ≤ fwInit edges i j) ∧
  (∀ i j p, IsWalkFrom (gWeight edges) i j p →
    (∀ x ∈ p.dropLast, x ∈ K) → d i j ≤ walkCost (gWeight edges) i p) ∧
  (∀ i j, d i j = ⊤ ∨ ∃ p, IsWalkFrom (gWeight edges) i j p ∧
    (∀ x ∈ p.dropLast, x ∈ K) ∧ walkCost (gWeight edges) i p = d i j)

/-! ## Theorems for the Categorizer claims -/

/-- Helper: counting a label in the cut column equals counting the matching
source rows. -/
theorem count_cutLabel (car : List (Option ℚ)) (c : String) :
    (car.filterMap (fun v => v.map cutLabel)).count c =
      (car.filterMap id).countP (fun q => cutLabel q = c) := by
  induction car with
  | nil => rfl
  | cons v rest ih =>
    cases v with
    | none => simpa using ih
    | some q =>
      by_cases h : cutLabel q = c
      · simp [List.count_cons, List.countP_cons, h, ih]
      · simp [List.count_cons, List.countP_cons, h, ih]

theorem cutLabel_eq_low (q : ℚ) : cutLabel q = "low" ↔ q < 15 := by
  unfold cutLabel
  by_cases h1 : q < 15
  · simp [h1]
  · by_cases h2 : q < 25 <;> simp [h1, h2]

theorem cutLabel_eq_medium (q : ℚ) : cutLabel q = "medium" ↔ 15 ≤ q ∧ q < 25 := by
  unfold cutLabel
  by_cases h1 : q < 15
  · simp [h1, not_le.mpr h1]
  · by_cases h2 : q < 25 <;> simp [h1, h2, not_lt.mp h1]

theorem cutLabel_eq_high (q : ℚ) : cutLabel q = "high" ↔ 25 ≤ q := by
  unfold cutLabel
  by_cases h1 : q < 15
  · constructor
    · intro h; simp [h1] at h
    · intro h; linarith
  · by_cases h2 : q < 25
    · constructor
      · intro h; simp [h1, h2] at h
      · intro h; linarith
    · simp [h1, h2, not_lt.mp h2]

/-- Helper: the three-element count list sorts to high, low, medium. -/
theorem sort_counts (a b c : ℕ) :
    List.insertionSort (fun x y => strLe x.1 y.1)
        [("low", a), ("medium", b), ("high", c)] =
      [("high", c), ("low", a), ("medium", b)] := by
  simp [List.insertionSort, List.orderedInsert,
    show strLe "medium" "high" = false from rfl,
    show strLe "low" "high" = false from rfl,
    show strLe "low" "medium" = true from rfl]

/-- C8: `get_type_count` buckets each parsed value into `low` (< 15),
`medium` ([15,25)) or `high` (≥ 25), excludes unparsable (`NaN`) values,
and returns the label-to-count mapping with keys in sorted label order;
on the input `[5, 15, 25, 30]` the mapping is
`{"low": 1, "medium": 1, "high": 2}`. -/
theorem get_type_count_spec (car : List (Option ℚ)) :
    get_type_count car =
      [("high", (car.filterMap id).countP (fun q => 25 ≤ q)),
       ("low", (car.filterMap id).countP (fun q => q < 15)),
       ("medium", (car.filterMap id).countP (fun q => 15 ≤ q ∧ q < 25))] ∧
    get_type_count [some 5, some 15, some 25, some 30] =
      [("high", 2), ("low", 1), ("medium", 1)] := by
  constructor
  · unfold get_type_count
    simp only [carCategories, List.map_cons, List.map_nil, sort_counts]
    rw [count_cutLabel, count_cutLabel, count_cutLabel]
    have h1 : ((car.filterMap id).countP (fun q => cutLabel q = "high")) =
        ((car.filterMap id).countP (fun q => 25 ≤ q)) :=
      List.countP_congr (fun q _ => by simp [cutLabel_eq_high])
    have h2 : ((car.filterMap id).countP (fun q => cutLabel q = "low")) =
        ((car.filterMap id).countP (fun q => q < 15)) :=
      List.countP_congr (fun q _ => by simp [cutLabel_eq_low])
    have h3 : ((car.filterMap id).countP (fun q => cutLabel q = "medium")) =
        ((car.filterMap id).countP (fun q => 15 ≤ q ∧ q < 25)) :=
      List.countP_congr (fun q _ => by simp [cutLabel_eq_medium])
    rw [h1, h2, h3]
  · decide

/-- C10: the mapping returned by `get_type_count` always has exactly the
three keys `high`, `low`, `medium` (in that order); a bucket with no
matching rows is reported with count 0, as on the empty input. -/
theorem get_type_count_keys (car : List (Option ℚ)) :
    (get_type_count car).map Prod.fst = ["high", "low", "medium"] ∧
    get_type_count [] = [("high", 0), ("low", 0), ("medium", 0)] := by
  constructor
  · unfold get_type_count
    simp only [carCategories, List.map_cons, List.map_nil, sort_counts]
  · decide

/-- C9: with at least one row matching the reference id,
`find_ids_within_ten_percentage_threshold` returns exactly the rows whose
`id_start` differs from the reference and whose distance lies in the
inclusive band `[0.9 * a, 1.1 * a]` around the reference mean `a`, and the
result never contains a row of the reference group. -/
theorem find_ids_within_ten_percentage_threshold_spec
    (df : List TollRow) (ref : ℕ) (h : ∃ r ∈ df, r.id_start = ref) :
    (find_ids_within_ten_percentage_threshold df ref =
      df.filter (fun r =>
        r.id_start ≠ ref ∧
        0.9 * (((df.filter (fun r => r.id_start = ref)).map (·.distance)).sum /
          ((df.filter (fun r => r.id_start = ref)).length : ℚ)) ≤ r.distance ∧
        r.distance ≤
          1.1 * (((df.filter (fun r => r.id_start = ref)).map (·.distance)).sum /
            ((df.filter (fun r => r.id_start = ref)).length : ℚ)))) ∧
    ∀ r ∈ find_ids_within_ten_percentage_threshold df ref, r.id_start ≠ ref := by
  have hne : df.filter (fun r => r.id_start = ref) ≠ [] := by
    obtain ⟨r, hr, hid⟩ := h
    intro hnil
    have : r ∈ df.filter (fun r => r.id_start = ref) :=
      List.mem_filter.mpr ⟨hr, by simp [hid]⟩
    rw [hnil] at this
    exact absurd this (List.not_mem_nil r)
  have heq : find_ids_within_ten_percentage_threshold df ref =
      df.filter (fun r =>
        r.id_start ≠ ref ∧
        0.9 * (((df.filter (fun r => r.id_start = ref)).map (·.distance)).sum /
          ((df.filter (fun r => r.id_start = ref)).length : ℚ)) ≤ r.distance ∧
        r.distance ≤
          1.1 * (((df.filter (fun r => r.id_start = ref)).map (·.distance)).sum /
            ((df.filter (fun r => r.id_start = ref)).length : ℚ))) := by
    unfold find_ids_within_ten_percentage_threshold
    rw [if_neg hne]
  refine ⟨heq, fun r hr => ?_⟩
  rw [heq] at hr
  have := (List.mem_filter.mp hr).2
  simp only [decide_eq_true_eq] at this
  exact this.1

/-- Witness for C9, on the spec's own example: the reference group of id 1
has mean distance 10, so the band is `[9, 11]`; the row with distance 10.5
is kept and the row with distance 12 is dropped. -/
theorem find_ids_within_ten_percentage_threshold_witness :
    (∃ r ∈ [TollRow.mk 1 2 10, TollRow.mk 2 3 10.5, TollRow.mk 3 4 12],
        r.id_start = 1) ∧
    (∀ r ∈ find_ids_within_ten_percentage_threshold
        [TollRow.mk 1 2 10, TollRow.mk 2 3 10.5, TollRow.mk 3 4 12] 1,
        r.id_start ≠ 1) ∧
    find_ids_within_ten_percentage_threshold
        [TollRow.mk 1 2 10, TollRow.mk 2 3 10.5, TollRow.mk 3 4 12] 1 =
      [TollRow.mk 2 3 10.5] :=
  ⟨by decide,
   (find_ids_within_ten_percentage_threshold_spec
      [TollRow.mk 1 2 10, TollRow.mk 2 3 10.5, TollRow.mk 3 4 12] 1
      (by decide)).2,
   by norm_num [find_ids_within_ten_percentage_threshold, List.filter]⟩

/-! ## Theorems for the TimeWindowExpander claims -/

/-- C5 counterexample: `calculate_time_based_toll_rates` reads
`datetime.today()`, so two calls on the same one-row input made on
different days (here a Monday, `today = 0`, and a Wednesday, `today = 2`)
return different tables. -/
theorem calculate_time_based_toll_rates_not_time_invariant :
    calculate_time_based_toll_rates 0 [TollRow.mk 1 2 10] ≠
      calculate_time_based_toll_rates 2 [TollRow.mk 1 2 10] := by
  decide

/-- C5 amended: every function of the repository other than
`calculate_time_based_toll_rates` reads nothing but its arguments, and
`calculate_time_based_toll_rates` depends on the invocation date only
through its `start_day`/`end_day` columns: after dropping those two
columns, calls at any two dates on equal inputs agree. -/
theorem calculate_time_based_toll_rates_eraseDays_deterministic
    (t₁ t₂ : ℕ) (df : List TollRow) :
    (calculate_time_based_toll_rates t₁ df).map TimedRow.eraseDays =
      (calculate_time_based_toll_rates t₂ df).map TimedRow.eraseDays := by
  simp [calculate_time_based_toll_rates, TimedRow.eraseDays, List.map_flatMap,
    List.map_map, Function.comp_def]

/-- C4: evidence of the day-anchoring slip.  Called on a Wednesday
(`today = 2`) with the single pair `(1,2)`, the function emits 17 rows, but
the rows labelled `Saturday` are the three weekday sub-windows while the
single whole-day window lands on `Monday` — the claimed Monday–Friday /
Saturday–Sunday assignment only occurs when the call is made on a
Monday. -/
theorem calculate_time_based_toll_rates_day_anchoring :
    (calculate_time_based_toll_rates 2 [TollRow.mk 1 2 10]).length = 17 ∧
    ((calculate_time_based_toll_rates 2 [TollRow.mk 1 2 10]).filter
        (fun r => r.start_day = "Saturday")).map
        (fun r => (r.start_time, r.end_time)) =
      [(0, 36000), (36000, 64800), (64800, 86399)] ∧
    ((calculate_time_based_toll_rates 2 [TollRow.mk 1 2 10]).filter
        (fun r => r.start_day = "Monday")).map
        (fun r => (r.start_time, r.end_time)) =
      [(0, 86399)] := by
  refine ⟨by decide, by decide, by decide⟩

/-! ## Lemmas on the pivot machinery -/

theorem mem_sortedDedup {l : List ℕ} {a : ℕ} : a ∈ sortedDedup l ↔ a ∈ l := by
  unfold sortedDedup
  rw [(List.perm_insertionSort _ _).mem_iff, List.mem_dedup]

theorem sortedDedup_nodup (l : List ℕ) : (sortedDedup l).Nodup :=
  (List.perm_insertionSort _ _).nodup_iff.mpr l.nodup_dedup

theorem sortedDedup_sorted (l : List ℕ) : (sortedDedup l).Sorted (· ≤ ·) :=
  List.sorted_insertionSort _ _

theorem sortedDedup_eq_of_toFinset_eq {l₁ l₂ : List ℕ}
    (h : l₁.toFinset = l₂.toFinset) : sortedDedup l₁ = sortedDedup l₂ := by
  refine List.eq_of_perm_of_sorted
    (List.perm_of_nodup_nodup_toFinset_eq (sortedDedup_nodup l₁)
      (sortedDedup_nodup l₂) ?_)
    (sortedDedup_sorted l₁) (sortedDedup_sorted l₂)
  ext a
  simp only [List.mem_toFinset, mem_sortedDedup]
  rw [← List.mem_toFinset, ← List.mem_toFinset, h]

theorem foldl_setDiagZero_rowLabels (L : List ℕ) (m : CarMatrix) :
    (L.foldl setDiagZero m).rowLabels = m.rowLabels := by
  induction L generalizing m with
  | nil => rfl
  | cons i L ih =>
    rw [List.foldl_cons, ih]
    rfl

theorem foldl_setDiagZero_colLabels {L : List ℕ} {m : CarMatrix}
    (h : ∀ i ∈ L, i ∈ m.colLabels) :
    (L.foldl setDiagZero m).colLabels = m.colLabels := by
  induction L generalizing m with
  | nil => rfl
  | cons i L ih =>
    have hi : i ∈ m.colLabels := h i (by simp)
    have hcols : (setDiagZero m i).colLabels = m.colLabels := by
      simp [setDiagZero, hi]
    rw [List.foldl_cons, ih (fun j hj => by rw [hcols]; exact h j (by simp [hj])),
      hcols]

theorem foldl_setDiagZero_cell (L : List ℕ) (m : CarMatrix) (a b : ℕ) :
    (L.foldl setDiagZero m).cell a b =
      if a = b ∧ a ∈ L then some 0 else m.cell a b := by
  induction L generalizing m with
  | nil => simp
  | cons i L ih =>
    rw [List.foldl_cons, ih]
    by_cases hab : a = b
    · subst hab
      by_cases hi : a = i
      · subst hi
        simp [setDiagZero]
      · by_cases hL : a ∈ L
        · simp [setDiagZero, hL, hi]
        · simp [setDiagZero, hL, hi]
    · have hni : ¬(a = i ∧ b = i) := fun hx => hab (hx.1.trans hx.2.symm)
      simp [setDiagZero, hab, hni]

theorem find?_key_unique {df : List PRow}
    (hn : (df.map (fun r => (r.id_1, r.id_2))).Nodup) {r : PRow} (hr : r ∈ df) :
    df.find? (fun x => x.id_1 = r.id_1 ∧ x.id_2 = r.id_2) = some r := by
  induction df with
  | nil => cases hr
  | cons a l ih =>
    rw [List.map_cons, List.nodup_cons] at hn
    by_cases hp : a.id_1 = r.id_1 ∧ a.id_2 = r.id_2
    · rcases List.mem_cons.mp hr with h | h
      · rw [List.find?_cons_of_pos _ (by simpa using hp), h]
      · exfalso
        exact hn.1 (by
          have : (a.id_1, a.id_2) = (r.id_1, r.id_2) := by rw [hp.1, hp.2]
          rw [this]
          exact List.mem_map_of_mem _ h)
    · rcases List.mem_cons.mp hr with h | h
      · exact absurd (h ▸ ⟨rfl, rfl⟩) hp
      · rw [List.find?_cons_of_neg _ (by simpa using hp)]
        exact ih hn.2 h

theorem pivotMatrix_cell_present {df : List PRow}
    (hn : (df.map (fun r => (r.id_1, r.id_2))).Nodup) {r : PRow} (hr : r ∈ df) :
    (pivotMatrix df).cell r.id_1 r.id_2 = some (r.car.getD 0) := by
  show (if _ then _ else _) = _
  rw [if_pos ⟨List.mem_map_of_mem _ hr, List.mem_map_of_mem _ hr⟩,
    find?_key_unique hn hr]

theorem pivotMatrix_cell_absent {df : List PRow} {a b : ℕ}
    (ha : a ∈ df.map (·.id_1)) (hb : b ∈ df.map (·.id_2))
    (hab : (a, b) ∉ df.map (fun r => (r.id_1, r.id_2))) :
    (pivotMatrix df).cell a b = some 0 := by
  show (if _ then _ else _) = _
  rw [if_pos ⟨ha, hb⟩]
  have hfind : df.find? (fun x => x.id_1 = a ∧ x.id_2 = b) = none := by
    rw [List.find?_eq_none]
    intro x hx
    simp only [decide_eq_true_eq, not_and]
    intro h1 h2
    exact absurd (by rw [← h1, ← h2]; exact List.mem_map_of_mem _ hx) hab
  rw [hfind]

/-- Core of the MatrixBuilder shape property, under the hypotheses forced
by the counterexamples: no duplicated `(id_1, id_2)` pair, and the same
identifier set in both roles. -/
theorem generate_car_matrix_square_core (df : List PRow)
    (hn : (df.map (fun r => (r.id_1, r.id_2))).Nodup)
    (hs : (df.map (·.id_1)).toFinset = (df.map (·.id_2)).toFinset) :
    ∃ m, generate_car_matrix df = some m ∧
      m.rowLabels = sortedDedup (df.map (·.id_1)) ∧
      m.colLabels = m.rowLabels ∧
      (∀ a ∈ m.rowLabels, m.cell a a = some 0) ∧
      (∀ a b, a ∈ m.rowLabels → b ∈ m.colLabels →
        (a, b) ∉ df.map (fun r => (r.id_1, r.id_2)) → m.cell a b = some 0) := by
  have hsub : ∀ i ∈ (pivotMatrix df).rowLabels, i ∈ (pivotMatrix df).colLabels := by
    intro i hi
    show i ∈ sortedDedup (df.map (·.id_2))
    rw [mem_sortedDedup, ← List.mem_toFinset, ← hs, List.mem_toFinset,
      ← @mem_sortedDedup (df.map (·.id_1))]
    exact hi
  have hrows : ((pivotMatrix df).rowLabels.foldl setDiagZero
      (pivotMatrix df)).rowLabels = sortedDedup (df.map (·.id_1)) := by
    rw [foldl_setDiagZero_rowLabels]
    rfl
  have hcols : ((pivotMatrix df).rowLabels.foldl setDiagZero
      (pivotMatrix df)).colLabels = sortedDedup (df.map (·.id_1)) := by
    rw [foldl_setDiagZero_colLabels hsub]
    exact sortedDedup_eq_of_toFinset_eq hs.symm
  refine ⟨(pivotMatrix df).rowLabels.foldl setDiagZero (pivotMatrix df),
    ?_, hrows, by rw [hcols, hrows], ?_, ?_⟩
  · unfold generate_car_matrix pivotCar
    rw [if_pos hn]
    rfl
  · intro a ha
    rw [hrows] at ha
    rw [foldl_setDiagZero_cell, if_pos ⟨rfl, by simpa [pivotMatrix] using ha⟩]
  · intro a b ha hb hab
    rw [hrows] at ha
    rw [hcols] at hb
    rw [foldl_setDiagZero_cell]
    by_cases hd : a = b ∧ a ∈ (pivotMatrix df).rowLabels
    · rw [if_pos hd]
    · rw [if_neg hd]
      refine pivotMatrix_cell_absent (mem_sortedDedup.mp ha) ?_ hab
      rw [← List.mem_toFinset, ← hs, List.mem_toFinset]
      exact mem_sortedDedup.mp hb

/-! ## Theorems for the MatrixBuilder claim -/

/-- C3 counterexample: on the input rows `(1,2,5), (2,3,7)` the matrix
returned by `generate_car_matrix` has index labels `[1, 2]` but column
labels `[2, 3, 1]` (the diagonal write appends missing columns), so the
index and column label sets differ and the matrix is not square; moreover
the absent combination `(2, 1)` holds `NaN`, not 0. -/
theorem generate_car_matrix_labels_cex :
    ((generate_car_matrix [⟨1, 2, some 5⟩, ⟨2, 3, some 7⟩]).map
        (fun m => (m.rowLabels, m.colLabels))) = some ([1, 2], [2, 3, 1]) ∧
    ((generate_car_matrix [⟨1, 2, some 5⟩, ⟨2, 3, some 7⟩]).map
        (fun m => decide (m.rowLabels.toFinset = m.colLabels.toFinset))) =
      some false ∧
    ((generate_car_matrix [⟨1, 2, some 5⟩, ⟨2, 3, some 7⟩]).map
        (fun m => m.cell 2 1)) = some none := by
  refine ⟨by decide, by decide, by decide⟩

/-- C3 amended: when no `(id_1, id_2)` pair is duplicated (otherwise
`pivot` raises) and the distinct `id_1` set equals the distinct `id_2` set
(otherwise index and column labels differ), the matrix is square with equal
sorted index and column labels, every diagonal cell is 0, and every absent
combination holds 0. -/
theorem generate_car_matrix_square (df : List PRow)
    (hn : (df.map (fun r => (r.id_1, r.id_2))).Nodup)
    (hs : (df.map (·.id_1)).toFinset = (df.map (·.id_2)).toFinset) :
    ∃ m, generate_car_matrix df = some m ∧
      m.rowLabels = sortedDedup (df.map (·.id_1)) ∧
      m.colLabels = m.rowLabels ∧
      (∀ a ∈ m.rowLabels, m.cell a a = some 0) ∧
      (∀ a b, a ∈ m.rowLabels → b ∈ m.colLabels →
        (a, b) ∉ df.map (fun r => (r.id_1, r.id_2)) → m.cell a b = some 0) :=
  generate_car_matrix_square_core df hn hs

/-- Witness for C3 on the table `(1,2,5), (2,1,3)`, whose identifier sets
agree. -/
theorem generate_car_matrix_square_witness :
    (([⟨1, 2, some 5⟩, ⟨2, 1, some 3⟩] : List PRow).map
        (fun r => (r.id_1, r.id_2))).Nodup ∧
    (([⟨1, 2, some 5⟩, ⟨2, 1, some 3⟩] : List PRow).map (·.id_1)).toFinset =
      (([⟨1, 2, some 5⟩, ⟨2, 1, some 3⟩] : List PRow).map (·.id_2)).toFinset ∧
    ∃ m, generate_car_matrix [⟨1, 2, some 5⟩, ⟨2, 1, some 3⟩] = some m ∧
      m.rowLabels = sortedDedup
        (([⟨1, 2, some 5⟩, ⟨2, 1, some 3⟩] : List PRow).map (·.id_1)) ∧
      m.colLabels = m.rowLabels ∧
      (∀ a ∈ m.rowLabels, m.cell a a = some 0) ∧
      (∀ a b, a ∈ m.rowLabels → b ∈ m.colLabels →
        (a, b) ∉ ([⟨1, 2, some 5⟩, ⟨2, 1, some 3⟩] : List PRow).map
          (fun r => (r.id_1, r.id_2)) → m.cell a b = some 0) :=
  ⟨by decide, by decide,
   generate_car_matrix_square [⟨1, 2, some 5⟩, ⟨2, 1, some 3⟩]
     (by decide) (by decide)⟩

/-! ## Lemmas on the unroller -/

theorem mem_orderedPairs {l : List ℕ} {a b : ℕ} :
    (a, b) ∈ orderedPairs l ↔ a ∈ l ∧ b ∈ l ∧ b ≠ a := by
  unfold orderedPairs
  simp only [List.mem_flatMap, List.mem_map, List.mem_filter,
    decide_eq_true_eq, Prod.mk.injEq]
  constructor
  · rintro ⟨s, hs, e, ⟨he, hne⟩, rfl, rfl⟩
    exact ⟨hs, he, hne⟩
  · rintro ⟨ha, hb, hne⟩
    exact ⟨a, ha, b, ⟨hb, hne⟩, rfl, rfl⟩

theorem nodup_orderedPairs {l : List ℕ} (h : l.Nodup) :
    (orderedPairs l).Nodup := by
  unfold orderedPairs
  rw [List.nodup_flatMap]
  constructor
  · intro s _
    exact ((h.filter _).map (fun x y hxy => by
      simpa using congrArg Prod.snd hxy))
  · refine List.Pairwise.imp ?_ h
    intro s t hst x hxs hxt
    obtain ⟨e, _, rfl⟩ := List.mem_map.mp hxs
    obtain ⟨e', _, h'⟩ := List.mem_map.mp hxt
    exact hst (congrArg Prod.fst h'.symm)

theorem unrollRows_eq_some {m : CarMatrix} {ps : List (ℕ × ℕ)}
    (h : ∀ p ∈ ps, p.2 ∈ m.colLabels) :
    unrollRows m ps =
      some (ps.map (fun p => URow.mk p.1 p.2 (m.cell p.1 p.2))) := by
  induction ps with
  | nil => rfl
  | cons p ps ih =>
    rw [unrollRows, if_pos (h p (by simp)), ih (fun q hq => h q (by simp [hq]))]
    rfl


theorem countP_eq_one {α : Type} {l : List α} (hl : l.Nodup)
    {x : α} (hx : x ∈ l) (p : α → Bool) (hp : ∀ y, p y ↔ y = x) :
    l.countP p = 1 := by
  induction l with
  | nil => cases hx
  | cons a l ih =>
    rw [List.nodup_cons] at hl
    rcases List.mem_cons.mp hx with h | hx'
    · subst h
      have hpa : p x = true := (hp x).mpr rfl
      have hzero : l.countP p = 0 := by
        rw [List.countP_eq_zero]
        intro y hy hpy
        exact hl.1 (((hp y).mp hpy) ▸ hy)
      simp [List.countP_cons, hpa, hzero]
    · have hpa : p a = false := by
        rcases Bool.eq_false_or_eq_true (p a) with h | h
        · rw [h]
          exact absurd (((hp a).mp h) ▸ hx') hl.1
        · exact h
      simp [List.countP_cons, hpa, ih hl.2 hx']

theorem generate_car_matrix_eq_some {df : List PRow}
    (hn : (df.map (fun r => (r.id_1, r.id_2))).Nodup) :
    generate_car_matrix df = some (builtMatrix df) := by
  unfold generate_car_matrix pivotCar builtMatrix
  rw [if_pos hn]
  rfl

theorem builtMatrix_rowLabels (df : List PRow) :
    (builtMatrix df).rowLabels = sortedDedup (df.map (·.id_1)) := by
  unfold builtMatrix
  rw [foldl_setDiagZero_rowLabels]
  rfl

theorem builtMatrix_colLabels {df : List PRow}
    (hs : (df.map (·.id_1)).toFinset = (df.map (·.id_2)).toFinset) :
    (builtMatrix df).colLabels = sortedDedup (df.map (·.id_1)) := by
  have hsub : ∀ i ∈ (pivotMatrix df).rowLabels, i ∈ (pivotMatrix df).colLabels := by
    intro i hi
    show i ∈ sortedDedup (df.map (·.id_2))
    rw [mem_sortedDedup, ← List.mem_toFinset, ← hs, List.mem_toFinset,
      ← @mem_sortedDedup (df.map (·.id_1))]
    exact hi
  unfold builtMatrix
  rw [foldl_setDiagZero_colLabels hsub]
  exact sortedDedup_eq_of_toFinset_eq hs.symm

theorem unroll_builtMatrix {df : List PRow}
    (hs : (df.map (·.id_1)).toFinset = (df.map (·.id_2)).toFinset) :
    unroll_distance_matrix (builtMatrix df) = some (unrolledOf df) := by
  unfold unroll_distance_matrix unrolledOf
  refine unrollRows_eq_some ?_
  rintro ⟨x, y⟩ hp
  rw [builtMatrix_colLabels hs, ← builtMatrix_rowLabels]
  exact (mem_orderedPairs.mp hp).2.1

theorem unrolledOf_keys (df : List PRow) :
    (((unrolledOf df).map URow.toPRow).map (fun r => (r.id_1, r.id_2))) =
      orderedPairs (builtMatrix df).rowLabels := by
  unfold unrolledOf
  simp [List.map_map, URow.toPRow, Function.comp_def]

/-! ## Theorems for the MatrixUnroller round-trip claim -/

/-- C6 counterexample: for the single edge `(1, 2, 5)` the built matrix has
index `[1]`, so the unrolled table is empty and the rebuilt matrix has no
cell at `(1, 2)` — the originally present non-diagonal value 5 is not
reproduced by the round trip. -/
theorem unroll_roundtrip_cex :
    ((generate_car_matrix [⟨1, 2, some 5⟩]).bind (fun m =>
      (unroll_distance_matrix m).bind (fun u =>
        generate_car_matrix (u.map URow.toPRow)))).map
      (fun m₂ => m₂.cell 1 2) = some none ∧
    (none : Option ℚ) ≠ some 5 :=
  ⟨by decide, by decide⟩

/-- C6 amended: when no `(id_1, id_2)` pair is duplicated and the distinct
`id_1` set equals the distinct `id_2` set, the unrolled intermediate has
exactly one row per ordered pair of distinct index labels, each holding the
cell value at its pair, and rebuilding reproduces the original value at
every originally-present non-diagonal non-`NaN` pair. -/
theorem unroll_roundtrip (df : List PRow)
    (hn : (df.map (fun r => (r.id_1, r.id_2))).Nodup)
    (hs : (df.map (·.id_1)).toFinset = (df.map (·.id_2)).toFinset) :
    ∃ m u m₂, generate_car_matrix df = some m ∧
      unroll_distance_matrix m = some u ∧
      generate_car_matrix (u.map URow.toPRow) = some m₂ ∧
      (∀ a b, a ∈ m.rowLabels → b ∈ m.rowLabels → a ≠ b →
        u.countP (fun r => r.id_start = a ∧ r.id_end = b) = 1) ∧
      (∀ r ∈ u, r.id_start ∈ m.rowLabels ∧ r.id_end ∈ m.rowLabels ∧
        r.id_start ≠ r.id_end ∧ r.distance = m.cell r.id_start r.id_end) ∧
      (∀ r ∈ df, r.id_1 ≠ r.id_2 → ∀ q, r.car = some q →
        m₂.cell r.id_1 r.id_2 = some q) := by
  have hSnodup : (builtMatrix df).rowLabels.Nodup := by
    rw [builtMatrix_rowLabels]
    exact sortedDedup_nodup _
  have hn₂ : (((unrolledOf df).map URow.toPRow).map
      (fun r => (r.id_1, r.id_2))).Nodup := by
    rw [unrolledOf_keys]
    exact nodup_orderedPairs hSnodup
  refine ⟨builtMatrix df, unrolledOf df,
    builtMatrix ((unrolledOf df).map URow.toPRow),
    generate_car_matrix_eq_some hn, unroll_builtMatrix hs,
    generate_car_matrix_eq_some hn₂, ?_, ?_, ?_⟩
  · -- exactly one unrolled row per ordered pair
    intro a b ha hb hab
    unfold unrolledOf
    rw [List.countP_map]
    refine countP_eq_one (nodup_orderedPairs hSnodup)
      (mem_orderedPairs.mpr ⟨ha, hb, hab.symm⟩) _ ?_
    rintro ⟨x, y⟩
    simp [Function.comp_def, Prod.ext_iff, and_comm]
  · -- shape of the unrolled rows
    intro r hr
    rw [unrolledOf] at hr
    obtain ⟨⟨x, y⟩, hq, rfl⟩ := List.mem_map.mp hr
    obtain ⟨hx, hy, hyx⟩ := mem_orderedPairs.mp hq
    exact ⟨hx, hy, fun he => hyx he.symm, rfl⟩
  · -- round-trip value reproduction
    intro r hr hne q hq
    have hiS : r.id_1 ∈ (builtMatrix df).rowLabels := by
      rw [builtMatrix_rowLabels, mem_sortedDedup]
      exact List.mem_map_of_mem _ hr
    have hjS : r.id_2 ∈ (builtMatrix df).rowLabels := by
      rw [builtMatrix_rowLabels, mem_sortedDedup, ← List.mem_toFinset, hs,
        List.mem_toFinset]
      exact List.mem_map_of_mem _ hr
    have hpair : (r.id_1, r.id_2) ∈ orderedPairs (builtMatrix df).rowLabels :=
      mem_orderedPairs.mpr ⟨hiS, hjS, fun he => hne he.symm⟩
    have hmcell : (builtMatrix df).cell r.id_1 r.id_2 = some q := by
      unfold builtMatrix
      rw [foldl_setDiagZero_cell, if_neg (fun hx => hne hx.1),
        pivotMatrix_cell_present hn hr, hq]
      rfl
    have hrow₂ : (⟨r.id_1, r.id_2, some q⟩ : PRow) ∈
        (unrolledOf df).map URow.toPRow := by
      refine List.mem_map.mpr ⟨URow.mk r.id_1 r.id_2 (some q), ?_, rfl⟩
      rw [unrolledOf]
      refine List.mem_map.mpr ⟨(r.id_1, r.id_2), hpair, ?_⟩
      rw [← hmcell]
    show (builtMatrix _).cell _ _ = _
    unfold builtMatrix
    rw [foldl_setDiagZero_cell, if_neg (fun hx => hne hx.1)]
    have := pivotMatrix_cell_present hn₂ hrow₂
    simpa using this

/-- Witness for C6 on the two-edge table `(1,2,5), (2,1,3)`. -/
theorem unroll_roundtrip_witness :
    (([⟨1, 2, some 5⟩, ⟨2, 1, some 3⟩] : List PRow).map
        (fun r => (r.id_1, r.id_2))).Nodup ∧
    (([⟨1, 2, some 5⟩, ⟨2, 1, some 3⟩] : List PRow).map (·.id_1)).toFinset =
      (([⟨1, 2, some 5⟩, ⟨2, 1, some 3⟩] : List PRow).map (·.id_2)).toFinset ∧
    ∃ m u m₂,
      generate_car_matrix [⟨1, 2, some 5⟩, ⟨2, 1, some 3⟩] = some m ∧
      unroll_distance_matrix m = some u ∧
      generate_car_matrix (u.map URow.toPRow) = some m₂ ∧
      (∀ a b, a ∈ m.rowLabels → b ∈ m.rowLabels → a ≠ b →
        u.countP (fun r => r.id_start = a ∧ r.id_end = b) = 1) ∧
      (∀ r ∈ u, r.id_start ∈ m.rowLabels ∧ r.id_end ∈ m.rowLabels ∧
        r.id_start ≠ r.id_end ∧ r.distance = m.cell r.id_start r.id_end) ∧
      (∀ r ∈ ([⟨1, 2, some 5⟩, ⟨2, 1, some 3⟩] : List PRow),
        r.id_1 ≠ r.id_2 → ∀ q, r.car = some q →
        m₂.cell r.id_1 r.id_2 = some q) :=
  ⟨by decide, by decide,
   unroll_roundtrip [⟨1, 2, some 5⟩, ⟨2, 1, some 3⟩] (by decide) (by decide)⟩

/-! ## Lemmas on the frame model -/

theorem find?_map_overwrite (l : List (String × List Val)) (c c' : String)
    (vs : List Val) (h : c' ≠ c) :
    (l.map (fun p => if p.1 = c then (c, vs) else p)).find?
        (fun p => p.1 = c') =
      l.find? (fun p => p.1 = c') := by
  induction l with
  | nil => rfl
  | cons p l ih =>
    rw [List.map_cons]
    by_cases hp : p.1 = c
    · rw [if_pos hp, List.find?_cons_of_neg _ (by simp [Ne.symm h]),
        List.find?_cons_of_neg _ (by simp [hp, Ne.symm h]), ih]
    · rw [if_neg hp]
      by_cases hp' : p.1 = c'
      · rw [List.find?_cons_of_pos _ (by simp [hp']),
          List.find?_cons_of_pos _ (by simp [hp'])]
      · rw [List.find?_cons_of_neg _ (by simp [hp']),
          List.find?_cons_of_neg _ (by simp [hp']), ih]

theorem find?_append_last (l : List (String × List Val)) (c c' : String)
    (vs : List Val) (h : c' ≠ c) :
    ((l ++ [(c, vs)]).find? (fun p => p.1 = c')) =
      l.find? (fun p => p.1 = c') := by
  induction l with
  | nil =>
    show List.find? _ [(c, vs)] = none
    rw [List.find?_cons_of_neg _ (by simp [Ne.symm h])]
    rfl
  | cons p l ih =>
    by_cases hp : p.1 = c'
    · rw [List.cons_append, List.find?_cons_of_pos _ (by simp [hp]),
        List.find?_cons_of_pos _ (by simp [hp])]
    · rw [List.cons_append, List.find?_cons_of_neg _ (by simp [hp]),
        List.find?_cons_of_neg _ (by simp [hp]), ih]

theorem setCol_getCol_ne (df : DF) (c c' : String) (vs : List Val)
    (h : c' ≠ c) : (df.setCol c vs).getCol c' = df.getCol c' := by
  unfold DF.setCol DF.getCol
  by_cases hs : (df.cols.find? (fun p => p.1 = c)).isSome
  · rw [if_pos hs]
    show ((df.cols.map _).find? _).map _ = _
    rw [find?_map_overwrite _ _ _ _ h]
  · rw [if_neg hs]
    show (((df.cols ++ [(c, vs)]).find? _)).map _ = _
    rw [find?_append_last _ _ _ _ h]

theorem mem_setCol_names (df : DF) (c c' : String) (vs : List Val) :
    c' ∈ (df.setCol c vs).names ↔ c' ∈ df.names ∨ c' = c := by
  unfold DF.setCol DF.names
  by_cases hs : (df.cols.find? (fun p => p.1 = c)).isSome
  · rw [if_pos hs]
    show c' ∈ (df.cols.map _).map Prod.fst ↔ _
    rw [List.map_map]
    constructor
    · intro hc
      obtain ⟨p, hp, he⟩ := List.mem_map.mp hc
      by_cases hpc : p.1 = c
      · right
        simpa [Function.comp_def, hpc] using he.symm
      · left
        exact List.mem_map.mpr ⟨p, hp, by simpa [Function.comp_def, hpc] using he⟩
    · rintro (hc | rfl)
      · obtain ⟨p, hp, he⟩ := List.mem_map.mp hc
        refine List.mem_map.mpr ⟨p, hp, ?_⟩
        by_cases hpc : p.1 = c
        · simp [Function.comp_def, hpc, ← he]
        · simpa [Function.comp_def, hpc] using he
      · obtain ⟨p, hp, hpe⟩ := List.find?_isSome.mp hs
        refine List.mem_map.mpr ⟨p, hp, ?_⟩
        have : p.1 = c' := by simpa using hpe
        simp [Function.comp_def, this]
  · rw [if_neg hs]
    show c' ∈ (df.cols ++ [(c, vs)]).map Prod.fst ↔ _
    simp [DF.names]

theorem tollLoop_frame (l : List (String × ℚ)) (df df' : DF)
    (h : Frame.tollLoop l df = some df') :
    (∀ c, c ∉ l.map Prod.fst → df'.getCol c = df.getCol c) ∧
    (∀ c, c ∈ df'.names ↔ c ∈ df.names ∨ c ∈ l.map Prod.fst) := by
  induction l generalizing df with
  | nil =>
    rw [Frame.tollLoop] at h
    cases h
    exact ⟨fun c _ => rfl, fun c => by simp⟩
  | cons nc rest ih =>
    obtain ⟨n, co⟩ := nc
    rw [Frame.tollLoop] at h
    cases hg : df.getCol "distance" with
    | none => rw [hg] at h; cases h
    | some vs =>
      rw [hg] at h
      dsimp only at h
      cases hm : vs.mapM (mulVal co) with
      | none => rw [hm] at h; cases h
      | some vs2 =>
        rw [hm] at h
        dsimp only at h
        obtain ⟨h1, h2⟩ := ih (df.setCol n vs2) h
        constructor
        · intro c hc
          rw [List.map_cons, List.mem_cons] at hc
          push_neg at hc
          rw [h1 c hc.2]
          exact setCol_getCol_ne df n c vs2 hc.1
        · intro c
          rw [h2 c, mem_setCol_names]
          rw [List.map_cons, List.mem_cons]
          tauto

/-! ## Theorems for the frame claim -/

/-- C7 counterexample: `get_type_count` writes the derived `car_type`
column into the caller's table in place, so after the call the caller's
table has an extra column. -/
theorem get_type_count_mutates_input :
    Frame.get_type_count ⟨[("car", [Val.num 5])]⟩ =
      some ⟨[("car", [Val.num 5]), ("car_type", [Val.str "low"])]⟩ ∧
    (⟨[("car", [Val.num 5]), ("car_type", [Val.str "low"])]⟩ : DF) ≠
      ⟨[("car", [Val.num 5])]⟩ :=
  ⟨by decide, by decide⟩

/-- C7 amended: seven of the ten components perform no in-place write and
leave the caller's table untouched; `get_type_count`, `time_check` and
`calculate_toll_rate` assign derived columns into the caller's table
(`car_type`; `start_timestamp`/`end_timestamp`/`start_day`/`start_time`;
the five vehicle columns), preserving the contents of every other column:
after such a call the table's columns are the original ones plus the
derived names, and every column other than the derived ones is
unchanged. -/
theorem frame_effects (df : DF) (parse : String → String → Option Ts) :
    (Frame.generate_car_matrix df = df ∧
     Frame.get_bus_indexes df = df ∧
     Frame.filter_routes df = df ∧
     Frame.multiply_matrix df = df ∧
     Frame.check_timestamp_completeness df = df ∧
     Frame.calculate_distance_matrix df = df ∧
     Frame.unroll_distance_matrix df = df ∧
     Frame.find_ids_within_ten_percentage_threshold df = df ∧
     Frame.calculate_time_based_toll_rates df = df) ∧
    (∀ df', Frame.get_type_count df = some df' →
      (∀ c, c ≠ "car_type" → df'.getCol c = df.getCol c) ∧
      (∀ c, c ∈ df'.names ↔ c ∈ df.names ∨ c = "car_type")) ∧
    (∀ df', Frame.calculate_toll_rate df = some df' →
      (∀ c, c ∉ ["moto", "car", "rv", "bus", "truck"] →
        df'.getCol c = df.getCol c) ∧
      (∀ c, c ∈ df'.names ↔ c ∈ df.names ∨
        c ∈ ["moto", "car", "rv", "bus", "truck"])) ∧
    (∀ df', Frame.time_check parse df = some df' →
      (∀ c, c ∉ ["start_timestamp", "end_timestamp", "start_day",
        "start_time"] → df'.getCol c = df.getCol c) ∧
      (∀ c, c ∈ df'.names ↔ c ∈ df.names ∨
        c ∈ ["start_timestamp", "end_timestamp", "start_day",
          "start_time"])) := by
  refine ⟨⟨rfl, rfl, rfl, rfl, rfl, rfl, rfl, rfl, rfl⟩, ?_, ?_, ?_⟩
  · intro df' h
    unfold Frame.get_type_count at h
    cases hg : df.getCol "car" with
    | none => rw [hg] at h; cases h
    | some vs =>
      rw [hg] at h
      cases h
      exact ⟨fun c hc => setCol_getCol_ne df "car_type" c _ hc,
        fun c => mem_setCol_names df "car_type" c _⟩
  · intro df' h
    have := tollLoop_frame rate_coefficients df df' h
    have hnames : rate_coefficients.map Prod.fst =
        ["moto", "car", "rv", "bus", "truck"] := rfl
    rw [hnames] at this
    exact this
  · intro df' h
    unfold Frame.time_check at h
    split at h
    case _ sd st ed et hsd hst hed het =>
      split at h
      case _ sds sts eds ets hsds hsts heds hets =>
        cases h
        constructor
        · intro c hc
          simp only [List.mem_cons, List.not_mem_nil, or_false] at hc
          push_neg at hc
          obtain ⟨h1, h2, h3, h4⟩ := hc
          rw [setCol_getCol_ne _ _ _ _ h4, setCol_getCol_ne _ _ _ _ h3,
            setCol_getCol_ne _ _ _ _ h2, setCol_getCol_ne _ _ _ _ h1]
        · intro c
          rw [mem_setCol_names, mem_setCol_names, mem_setCol_names,
            mem_setCol_names]
          simp only [List.mem_cons, List.not_mem_nil, or_false]
          tauto
      case _ => cases h
    case _ => cases h

/-- Witness for C7: on a one-column table with a numeric `car` cell,
`generate_car_matrix` leaves the table unchanged while `get_type_count`
turns it into the two-column table, preserving the `car` column. -/
theorem frame_effects_witness :
    Frame.generate_car_matrix ⟨[("car", [Val.num 5])]⟩ =
      ⟨[("car", [Val.num 5])]⟩ ∧
    (∀ c, c ≠ "car_type" →
      (DF.mk [("car", [Val.num 5]), ("car_type", [Val.str "low"])]).getCol c =
        (DF.mk [("car", [Val.num 5])]).getCol c) :=
  ⟨(frame_effects ⟨[("car", [Val.num 5])]⟩ (fun _ _ => none)).1.1,
   ((frame_effects ⟨[("car", [Val.num 5])]⟩ (fun _ _ => none)).2.1
      (DF.mk [("car", [Val.num 5]), ("car_type", [Val.str "low"])])
      (by decide)).1⟩

/-! ## Theorems for the CompletenessChecker claim -/

theorem mem_secondsFrom : ∀ {n a s : ℕ}, s < n →
    some ((a + s) * 1000000) ∈ secondsFrom a n
  | 0, _, _, h => absurd h (Nat.not_lt_zero _)
  | n + 1, a, 0, _ => by
    rw [secondsFrom]
    exact List.mem_cons_self _ _
  | n + 1, a, s + 1, h => by
    rw [secondsFrom]
    refine List.mem_cons_of_mem _ ?_
    have := mem_secondsFrom (a := a + 1) (s := s) (Nat.lt_of_succ_lt_succ h)
    rwa [Nat.add_right_comm] at this

theorem mem_fullSeconds {s : ℕ} (h : s < 86400) :
    some (s * 1000000) ∈ fullSeconds := by
  have := mem_secondsFrom (a := 0) h
  rwa [Nat.zero_add] at this

/-- Python `set(a) == set(b)` is equality of the `Finset`s of distinct
elements. -/
theorem listSetEq_iff {α : Type} [DecidableEq α] (a b : List α) :
    listSetEq a b = true ↔ a.toFinset = b.toFinset := by
  unfold listSetEq
  rw [Bool.and_eq_true, List.all_eq_true, List.all_eq_true]
  constructor
  · rintro ⟨h1, h2⟩
    ext x
    simp only [List.mem_toFinset]
    exact ⟨fun hx => by simpa using h1 x hx, fun hx => by simpa using h2 x hx⟩
  · intro h
    constructor <;> intro x hx
    · simp only [decide_eq_true_eq]
      rw [← List.mem_toFinset, ← h, List.mem_toFinset]
      exact hx
    · simp only [decide_eq_true_eq]
      rw [← List.mem_toFinset, h, List.mem_toFinset]
      exact hx

/-- C2: for every `(key, value)` pair that `time_check` reports, the value
is true exactly when the distinct weekday names of the group's parsed start
timestamps equal the seven-day set and the distinct start times equal the
86400 one-second times; in particular a group missing any single one-second
timestamp reports false, whatever its weekday coverage. -/
theorem time_check_spec (parse : String → String → Option Ts)
    (rows : List TCRow) (k : ℕ × ℕ) (b : Bool)
    (hk : (k, b) ∈ time_check parse rows) :
    (b = true ↔
      ((rows.filter (fun r => (r.id, r.id_2) = k)).map
          (fun r => (parse r.startDay r.startTime).map
            (fun t => dayName t.day.val))).toFinset =
        (weekNames.map some).toFinset ∧
      ((rows.filter (fun r => (r.id, r.id_2) = k)).map
          (fun r => (parse r.startDay r.startTime).map Ts.micro)).toFinset =
        fullSeconds.toFinset) ∧
    (∀ s, s < 86400 →
      some (s * 1000000) ∉
        ((rows.filter (fun r => (r.id, r.id_2) = k)).map
          (fun r => (parse r.startDay r.startTime).map Ts.micro)) →
      b = false) := by
  unfold time_check at hk
  obtain ⟨k', hk', he⟩ := List.mem_map.mp hk
  obtain ⟨rfl, rfl⟩ : k' = k ∧
      check_timestamp_completeness
        ((rows.filter (fun r => (r.id, r.id_2) = k')).map
          (fun r => parse r.startDay r.startTime)) = b := by
    exact ⟨congrArg Prod.fst he, congrArg Prod.snd he⟩
  constructor
  · unfold check_timestamp_completeness
    rw [Bool.and_eq_true, listSetEq_iff, listSetEq_iff,
      List.map_map, List.map_map]
    rfl
  · intro s hs habs
    refine Bool.eq_false_iff.mpr ?_
    unfold check_timestamp_completeness
    intro hTrue
    rw [Bool.and_eq_true] at hTrue
    obtain ⟨_, hB⟩ := hTrue
    rw [listSetEq_iff] at hB
    apply habs
    have hmem : some (s * 1000000) ∈ fullSeconds := mem_fullSeconds hs
    rw [← List.mem_toFinset, ← hB, List.mem_toFinset, List.map_map] at hmem
    exact hmem

set_option maxRecDepth 4000 in
/-- Witness for C2: a seven-row group covering all seven weekday names but
only seven one-second times reports false. -/
theorem time_check_spec_witness :
    (((1, 1), false) ∈ time_check parseW tcRowsW) ∧
    ((false = true) ↔
      ((tcRowsW.filter (fun r => (r.id, r.id_2) = ((1, 1) : ℕ × ℕ))).map
          (fun r => (parseW r.startDay r.startTime).map
            (fun t => dayName t.day.val))).toFinset =
        (weekNames.map some).toFinset ∧
      ((tcRowsW.filter (fun r => (r.id, r.id_2) = ((1, 1) : ℕ × ℕ))).map
          (fun r => (parseW r.startDay r.startTime).map Ts.micro)).toFinset =
        fullSeconds.toFinset) :=
  ⟨by decide, (time_check_spec parseW tcRowsW (1, 1) false (by decide)).1⟩

/-! ## Lemmas on the graph of `calculate_distance_matrix` -/

theorem foldl_addEdge_symm (edges : List Edge) :
    ∀ (w : ℕ → ℕ → WithTop ℚ), (∀ u v, w u v = w v u) →
    ∀ u v, (edges.foldl (fun w e =>
        addEdge (addEdge w e.id_start e.id_end e.distance)
          e.id_end e.id_start e.distance) w) u v =
      (edges.foldl (fun w e =>
        addEdge (addEdge w e.id_start e.id_end e.distance)
          e.id_end e.id_start e.distance) w) v u := by
  induction edges with
  | nil => intro w hw u v; exact hw u v
  | cons e es ih =>
    intro w hw u v
    refine ih _ ?_ u v
    intro a b
    unfold addEdge
    by_cases hat : a = e.id_end ∧ b = e.id_start
    · obtain ⟨ha, hb⟩ := hat
      subst ha
      subst hb
      simp
    · by_cases has : a = e.id_start ∧ b = e.id_end
      · obtain ⟨ha, hb⟩ := has
        subst ha
        subst hb
        simp
      · have h3 : ¬(b = e.id_end ∧ a = e.id_start) := fun hx => has ⟨hx.2, hx.1⟩
        have h4 : ¬(b = e.id_start ∧ a = e.id_end) := fun hx => hat ⟨hx.2, hx.1⟩
        simp only [if_neg hat, if_neg has, if_neg h3, if_neg h4]
        exact hw a b

theorem gWeight_symm (edges : List Edge) (u v : ℕ) :
    gWeight edges u v = gWeight edges v u :=
  foldl_addEdge_symm edges (fun _ _ => ⊤) (fun _ _ => rfl) u v

theorem foldl_addEdge_cases (edges : List Edge) :
    ∀ (w : ℕ → ℕ → WithTop ℚ) (u v : ℕ),
      (edges.foldl (fun w e =>
        addEdge (addEdge w e.id_start e.id_end e.distance)
          e.id_end e.id_start e.distance) w) u v = w u v ∨
      ∃ e ∈ edges, (edges.foldl (fun w e =>
        addEdge (addEdge w e.id_start e.id_end e.distance)
          e.id_end e.id_start e.distance) w) u v =
        ((e.distance : ℚ) : WithTop ℚ) := by
  induction edges with
  | nil => intro w u v; exact Or.inl rfl
  | cons e es ih =>
    intro w u v
    rw [List.foldl_cons]
    rcases ih (addEdge (addEdge w e.id_start e.id_end e.distance)
        e.id_end e.id_start e.distance) u v with h | ⟨e', he', h⟩
    · rw [h]
      simp only [addEdge]
      by_cases h1 : u = e.id_end ∧ v = e.id_start
      · exact Or.inr ⟨e, List.mem_cons_self e es, by rw [if_pos h1]⟩
      · by_cases h2 : u = e.id_start ∧ v = e.id_end
        · exact Or.inr ⟨e, List.mem_cons_self e es,
            by rw [if_neg h1, if_pos h2]⟩
        · exact Or.inl (by rw [if_neg h1, if_neg h2])
    · exact Or.inr ⟨e', List.mem_cons_of_mem e he', h⟩

theorem gWeight_nonneg {edges : List Edge}
    (hnn : ∀ e ∈ edges, 0 ≤ e.distance) (u v : ℕ) :
    0 ≤ gWeight edges u v := by
  rcases foldl_addEdge_cases edges (fun _ _ => ⊤) u v with h | ⟨e, he, h⟩
  · rw [show gWeight edges u v = (fun (_ _ : ℕ) => (⊤ : WithTop ℚ)) u v from h]
    exact le_top
  · rw [show gWeight edges u v = ((e.distance : ℚ) : WithTop ℚ) from h]
    exact_mod_cast hnn e he

theorem mem_insertNode_self (ns : List ℕ) (v : ℕ) : v ∈ insertNode ns v := by
  unfold insertNode
  by_cases h : v ∈ ns
  · rw [if_pos h]
    exact h
  · rw [if_neg h]
    simp

theorem mem_insertNode_of_mem (ns : List ℕ) (v x : ℕ) (h : x ∈ ns) :
    x ∈ insertNode ns v := by
  unfold insertNode
  by_cases hv : v ∈ ns
  · rw [if_pos hv]
    exact h
  · rw [if_neg hv]
    exact List.mem_append_left _ h

theorem gNodes_aux_mono (edges : List Edge) :
    ∀ (ns : List ℕ) (x : ℕ), x ∈ ns →
      x ∈ edges.foldl
        (fun ns e => insertNode (insertNode ns e.id_start) e.id_end) ns := by
  induction edges with
  | nil => intro ns x h; exact h
  | cons e es ih =>
    intro ns x h
    exact ih _ x (mem_insertNode_of_mem _ _ _ (mem_insertNode_of_mem _ _ _ h))

theorem gWeight_mem_nodes (edges : List Edge) :
    ∀ (ns : List ℕ) (w : ℕ → ℕ → WithTop ℚ),
      (∀ u v, w u v ≠ ⊤ → u ∈ ns ∧ v ∈ ns) →
    ∀ u v, (edges.foldl (fun w e =>
        addEdge (addEdge w e.id_start e.id_end e.distance)
          e.id_end e.id_start e.distance) w) u v ≠ ⊤ →
      u ∈ edges.foldl
          (fun ns e => insertNode (insertNode ns e.id_start) e.id_end) ns ∧
      v ∈ edges.foldl
          (fun ns e => insertNode (insertNode ns e.id_start) e.id_end) ns := by
  induction edges with
  | nil => intro ns w hw u v h; exact hw u v h
  | cons e es ih =>
    intro ns w hw u v h
    refine ih _ _ ?_ u v h
    intro a b hab
    simp only [addEdge] at hab
    by_cases h1 : a = e.id_end ∧ b = e.id_start
    · obtain ⟨rfl, rfl⟩ := h1
      exact ⟨mem_insertNode_self _ _,
        mem_insertNode_of_mem _ _ _ (mem_insertNode_self _ _)⟩
    · rw [if_neg h1] at hab
      by_cases h2 : a = e.id_start ∧ b = e.id_end
      · obtain ⟨rfl, rfl⟩ := h2
        exact ⟨mem_insertNode_of_mem _ _ _ (mem_insertNode_self _ _),
          mem_insertNode_self _ _⟩
      · rw [if_neg h2] at hab
        obtain ⟨ha, hb⟩ := hw a b hab
        exact ⟨mem_insertNode_of_mem _ _ _ (mem_insertNode_of_mem _ _ _ ha),
          mem_insertNode_of_mem _ _ _ (mem_insertNode_of_mem _ _ _ hb)⟩

theorem gWeight_nodes {edges : List Edge} {u v : ℕ}
    (h : gWeight edges u v ≠ ⊤) : u ∈ gNodes edges ∧ v ∈ gNodes edges :=
  gWeight_mem_nodes edges [] (fun _ _ => ⊤)
    (fun _ _ hx => absurd rfl hx) u v h

theorem walk_mem_nodes {edges : List Edge} :
    ∀ {p : List ℕ} {i j : ℕ}, IsWalkFrom (gWeight edges) i j p →
      ∀ x ∈ p, x ∈ gNodes edges := by
  intro p
  induction p with
  | nil => intro i j _ x hx; cases hx
  | cons v rest ih =>
    intro i j hw x hx
    rcases List.mem_cons.mp hx with rfl | hx'
    · exact (gWeight_nodes hw.1).2
    · exact ih hw.2 x hx'

theorem walkCost_ne_top {edges : List Edge} :
    ∀ {p : List ℕ} {i j : ℕ}, IsWalkFrom (gWeight edges) i j p →
      walkCost (gWeight edges) i p ≠ ⊤ := by
  intro p
  induction p with
  | nil => intro i j _; simp [walkCost]
  | cons v rest ih =>
    intro i j hw
    rw [walkCost]
    exact WithTop.add_ne_top.mpr ⟨hw.1, ih hw.2⟩

/-! ## The Floyd–Warshall invariant -/

theorem FWInv_init (edges : List Edge)
    (hnn : ∀ e ∈ edges, 0 ≤ e.distance) :
    FWInv edges [] (fwInit edges) := by
  refine ⟨?_, ?_, ?_, fun i j => le_refl _, ?_, ?_⟩
  · intro i j
    unfold fwInit
    by_cases h : i = j
    · subst h
      rfl
    · rw [if_neg h, if_neg (fun hj => h hj.symm), gWeight_symm]
  · intro i j
    unfold fwInit
    by_cases h : i = j
    · rw [if_pos h]
    · rw [if_neg h]
      exact gWeight_nonneg hnn i j
  · intro i
    unfold fwInit
    rw [if_pos rfl]
  · intro i j p hwalk hint
    cases p with
    | nil =>
      have hij : i = j := hwalk
      subst hij
      show fwInit edges i i ≤ 0
      unfold fwInit
      rw [if_pos rfl]
    | cons v rest =>
      cases rest with
      | nil =>
        obtain ⟨hne, hvj⟩ := hwalk
        have hvj' : v = j := hvj
        rw [hvj']
        show fwInit edges i j ≤ gWeight edges i j + 0
        rw [add_zero]
        unfold fwInit
        by_cases h : i = j
        · rw [if_pos h]
          subst h
          exact gWeight_nonneg hnn i i
        · rw [if_neg h]
      | cons r rs =>
        exfalso
        have hv : v ∈ ([] : List ℕ) := by
          refine hint v ?_
          rw [List.dropLast_cons₂]
          exact List.mem_cons_self _ _
        cases hv
  · intro i j
    by_cases h : i = j
    · subst h
      refine Or.inr ⟨[], rfl, by simp, ?_⟩
      show (0 : WithTop ℚ) = fwInit edges i i
      unfold fwInit
      rw [if_pos rfl]
    · by_cases ht : gWeight edges i j = ⊤
      · refine Or.inl ?_
        unfold fwInit
        rw [if_neg h]
        exact ht
      · refine Or.inr ⟨[j], ⟨ht, rfl⟩, by simp, ?_⟩
        show gWeight edges i j + walkCost (gWeight edges) j [] = fwInit edges i j
        show gWeight edges i j + 0 = fwInit edges i j
        rw [add_zero]
        unfold fwInit
        rw [if_neg h]

/-- The triangle bound through an already-processed vertex, from the lower
bound and attainment halves of the invariant. -/
theorem FWInv_T {edges : List Edge} {K : List ℕ} {d : ℕ → ℕ → WithTop ℚ}
    (h : FWInv edges K d) {v : ℕ} (hv : v ∈ K) (i j : ℕ) :
    d i j ≤ gWeight edges i v + d v j := by
  obtain ⟨_, _, _, _, hLB, hatt⟩ := h
  by_cases hiv : gWeight edges i v = ⊤
  · rw [hiv, WithTop.top_add]
    exact le_top
  · rcases hatt v j with htop | ⟨p, hwp, hip, hcp⟩
    · rw [htop, WithTop.add_top]
      exact le_top
    · have hwalk : IsWalkFrom (gWeight edges) i j (v :: p) := ⟨hiv, hwp⟩
      have hint : ∀ x ∈ (v :: p).dropLast, x ∈ K := by
        cases p with
        | nil => simp
        | cons r rs =>
          rw [List.dropLast_cons₂]
          intro x hx
          rcases List.mem_cons.mp hx with rfl | hx'
          · exact hv
          · exact hip x hx'
      have := hLB i j (v :: p) hwalk hint
      calc d i j ≤ walkCost (gWeight edges) i (v :: p) := this
        _ = gWeight edges i v + walkCost (gWeight edges) v p := rfl
        _ = gWeight edges i v + d v j := by rw [hcp]

theorem walk_append {w : ℕ → ℕ → WithTop ℚ} :
    ∀ {p₁ : List ℕ} {i k : ℕ}, IsWalkFrom w i k p₁ →
    ∀ {p₂ : List ℕ} {j : ℕ}, IsWalkFrom w k j p₂ →
      IsWalkFrom w i j (p₁ ++ p₂) := by
  intro p₁
  induction p₁ with
  | nil =>
    intro i k h p₂ j h₂
    have hik : i = k := h
    subst hik
    exact h₂
  | cons v rest ih =>
    intro i k h p₂ j h₂
    exact ⟨h.1, ih h.2 h₂⟩

theorem walkCost_append {w : ℕ → ℕ → WithTop ℚ} :
    ∀ {p₁ : List ℕ} {i k : ℕ}, IsWalkFrom w i k p₁ → ∀ (p₂ : List ℕ),
      walkCost w i (p₁ ++ p₂) = walkCost w i p₁ + walkCost w k p₂ := by
  intro p₁
  induction p₁ with
  | nil =>
    intro i k h p₂
    have hik : i = k := h
    subst hik
    show walkCost w i p₂ = 0 + walkCost w i p₂
    rw [zero_add]
  | cons v rest ih =>
    intro i k h p₂
    show w i v + walkCost w v (rest ++ p₂) = w i v + walkCost w v rest + walkCost w k p₂
    rw [ih h.2 p₂, add_assoc]

theorem walk_mem_dropLast_or_last {w : ℕ → ℕ → WithTop ℚ} :
    ∀ {p : List ℕ} {i k : ℕ}, IsWalkFrom w i k p →
      ∀ x ∈ p, x ∈ p.dropLast ∨ x = k := by
  intro p
  induction p with
  | nil => intro i k _ x hx; cases hx
  | cons v rest ih =>
    intro i k h x hx
    cases hrest : rest with
    | nil =>
      subst hrest
      have hvk : v = k := h.2
      rcases List.mem_cons.mp hx with rfl | hx'
      · exact Or.inr hvk
      · cases hx'
    | cons r rs =>
      subst hrest
      rw [List.dropLast_cons₂]
      rcases List.mem_cons.mp hx with rfl | hx'
      · exact Or.inl (List.mem_cons_self _ _)
      · rcases ih h.2 x hx' with hL | hk
        · exact Or.inl (List.mem_cons_of_mem _ hL)
        · exact Or.inr hk

/-- The lower-bound half of the invariant is preserved by one
Floyd–Warshall step. -/
theorem fwStep_LB {edges : List Edge} {K : List ℕ} {d : ℕ → ℕ → WithTop ℚ}
    (hnn : ∀ e ∈ edges, 0 ≤ e.distance) (h : FWInv edges K d) (k : ℕ) :
    ∀ (p : List ℕ) (i j : ℕ), IsWalkFrom (gWeight edges) i j p →
      (∀ x ∈ p.dropLast, x ∈ K ++ [k]) →
      fwStep d k i j ≤ walkCost (gWeight edges) i p := by
  have hT := fun {v : ℕ} (hv : v ∈ K) (i j : ℕ) => FWInv_T h hv i j
  obtain ⟨hsym, hpos, hdiag, hinit, hLB, hatt⟩ := h
  intro p
  induction p with
  | nil =>
    intro i j hw _
    have hij : i = j := hw
    subst hij
    show min (d i i) (d i k + d k i) ≤ (0 : WithTop ℚ)
    rw [hdiag i]
    exact min_le_left _ _
  | cons v rest ih =>
    intro i j hw hint
    obtain ⟨hne, hw'⟩ := hw
    by_cases hr : rest = []
    · subst hr
      have hvj : v = j := hw'
      rw [hvj] at hne ⊢
      show fwStep d k i j ≤ gWeight edges i j + 0
      rw [add_zero]
      refine le_trans (min_le_left _ _) ?_
      have := hLB i j [j] ⟨hne, rfl⟩ (by simp)
      calc d i j ≤ walkCost (gWeight edges) i [j] := this
        _ = gWeight edges i j + 0 := rfl
        _ = gWeight edges i j := add_zero _
    · have hd : (v :: rest).dropLast = v :: rest.dropLast := by
        cases rest with
        | nil => exact absurd rfl hr
        | cons r rs => exact List.dropLast_cons₂ ..
      rw [hd] at hint
      have hv : v ∈ K ∨ v = k := by
        rcases List.mem_append.mp (hint v (List.mem_cons_self _ _)) with h | h
        · exact Or.inl h
        · exact Or.inr (List.mem_singleton.mp h)
      have hint' : ∀ x ∈ rest.dropLast, x ∈ K ++ [k] :=
        fun x hx => hint x (List.mem_cons_of_mem _ hx)
      have IH := ih v j hw' hint'
      show fwStep d k i j ≤
        gWeight edges i v + walkCost (gWeight edges) v rest
      rcases hv with hvK | hvk
      · rcases min_le_iff.mp IH with h1 | h2
        · calc fwStep d k i j ≤ d i j := min_le_left _ _
            _ ≤ gWeight edges i v + d v j := hT hvK i j
            _ ≤ gWeight edges i v + walkCost (gWeight edges) v rest :=
              add_le_add_left h1 _
        · calc fwStep d k i j ≤ d i k + d k j := min_le_right _ _
            _ ≤ (gWeight edges i v + d v k) + d k j :=
              add_le_add_right (hT hvK i k) _
            _ = gWeight edges i v + (d v k + d k j) := add_assoc _ _ _
            _ ≤ gWeight edges i v + walkCost (gWeight edges) v rest :=
              add_le_add_left h2 _
      · subst hvk
        have IH' : d v j ≤ walkCost (gWeight edges) v rest := by
          have hmin : fwStep d v v j = d v j := by
            show min (d v j) (d v v + d v j) = d v j
            rw [hdiag v, zero_add, min_self]
          rw [hmin] at IH
          exact IH
        have hik : d i v ≤ gWeight edges i v := by
          by_cases hik' : i = v
          · subst hik'
            rw [hdiag i]
            exact gWeight_nonneg hnn i i
          · refine le_trans (hinit i v) ?_
            unfold fwInit
            rw [if_neg hik']
        calc fwStep d v i j ≤ d i v + d v j := min_le_right _ _
          _ ≤ gWeight edges i v + walkCost (gWeight edges) v rest :=
            add_le_add hik IH'

/-- One Floyd–Warshall step extends the invariant by its intermediate
vertex. -/
theorem FWInv_step {edges : List Edge} {K : List ℕ} {d : ℕ → ℕ → WithTop ℚ}
    (hnn : ∀ e ∈ edges, 0 ≤ e.distance) (h : FWInv edges K d) (k : ℕ) :
    FWInv edges (K ++ [k]) (fwStep d k) := by
  have hLBstep := fwStep_LB hnn h k
  obtain ⟨hsym, hpos, hdiag, hinit, hLB, hatt⟩ := h
  refine ⟨?_, ?_, ?_, ?_, fun i j p => hLBstep p i j, ?_⟩
  · intro i j
    show min (d i j) (d i k + d k j) = min (d j i) (d j k + d k i)
    rw [hsym i j, hsym j k, hsym k i, add_comm (d i k)]
  · intro i j
    exact le_min (hpos i j) (add_nonneg (hpos i k) (hpos k j))
  · intro i
    show min (d i i) (d i k + d k i) = 0
    rw [hdiag i]
    exact min_eq_left (add_nonneg (hpos i k) (hpos k i))
  · intro i j
    exact le_trans (min_le_left _ _) (hinit i j)
  · intro i j
    rcases le_total (d i j) (d i k + d k j) with hle | hle
    · have hmin : fwStep d k i j = d i j := min_eq_left hle
      rcases hatt i j with htop | ⟨p, hwp, hip, hcp⟩
      · exact Or.inl (hmin.trans htop)
      · exact Or.inr ⟨p, hwp,
          fun x hx => List.mem_append_left _ (hip x hx),
          by rw [hcp, hmin]⟩
    · have hmin : fwStep d k i j = d i k + d k j := min_eq_right hle
      by_cases hik : d i k = ⊤
      · exact Or.inl (by rw [hmin, hik, WithTop.top_add])
      · by_cases hkj : d k j = ⊤
        · exact Or.inl (by rw [hmin, hkj, WithTop.add_top])
        · rcases hatt i k with htop | ⟨p₁, hwp₁, hip₁, hcp₁⟩
          · exact absurd htop hik
          · rcases hatt k j with htop | ⟨p₂, hwp₂, hip₂, hcp₂⟩
            · exact absurd htop hkj
            · refine Or.inr ⟨p₁ ++ p₂, walk_append hwp₁ hwp₂, ?_, ?_⟩
              · intro x hx
                have hsub : x ∈ p₁ ++ p₂.dropLast := by
                  cases hp₂ : p₂ with
                  | nil =>
                    subst hp₂
                    rw [List.append_nil] at hx
                    exact List.mem_append_left _
                      (List.dropLast_subset _ hx)
                  | cons c cs =>
                    subst hp₂
                    rw [List.dropLast_append_cons] at hx
                    exact hx
                rcases List.mem_append.mp hsub with hx1 | hx2
                · rcases walk_mem_dropLast_or_last hwp₁ x hx1 with hxd | rfl
                  · exact List.mem_append_left _ (hip₁ x hxd)
                  · exact List.mem_append_right _ (List.mem_singleton.mpr rfl)
                · exact List.mem_append_left _ (hip₂ x hx2)
              · rw [walkCost_append hwp₁ p₂, hcp₁, hcp₂, hmin]

/-- Folding Floyd–Warshall steps over a node list extends the
invariant. -/
theorem FWInv_foldl {edges : List Edge}
    (hnn : ∀ e ∈ edges, 0 ≤ e.distance) :
    ∀ (ks K : List ℕ) (d : ℕ → ℕ → WithTop ℚ), FWInv edges K d →
      FWInv edges (K ++ ks) (ks.foldl fwStep d) := by
  intro ks
  induction ks with
  | nil =>
    intro K d h
    rw [List.append_nil]
    exact h
  | cons k ks ih =>
    intro K d h
    have := ih (K ++ [k]) (fwStep d k) (FWInv_step hnn h k)
    rw [List.append_assoc] at this
    exact this

/-- The invariant holds of the finished matrix, with every node
processed. -/
theorem FWInv_final (edges : List Edge)
    (hnn : ∀ e ∈ edges, 0 ≤ e.distance) :
    FWInv edges (gNodes edges) (calculate_distance_matrix edges) := by
  have := FWInv_foldl hnn (gNodes edges) [] (fwInit edges) (FWInv_init edges hnn)
  rw [List.nil_append] at this
  exact this

/-- Evaluation of the spec's example: edges `(0,1,5), (1,2,5)` (A, B, C as
0, 1, 2). -/
theorem cdm_example_eval :
    calculate_distance_matrix [⟨0, 1, 5⟩, ⟨1, 2, 5⟩] 0 2 =
        ((10 : ℚ) : WithTop ℚ) ∧
    calculate_distance_matrix [⟨0, 1, 5⟩, ⟨1, 2, 5⟩] 0 0 = 0 ∧
    calculate_distance_matrix [⟨0, 1, 5⟩, ⟨1, 2, 5⟩] 0 1 =
        ((5 : ℚ) : WithTop ℚ) ∧
    calculate_distance_matrix [⟨0, 1, 5⟩, ⟨1, 2, 5⟩] 1 0 =
        ((5 : ℚ) : WithTop ℚ) := by
  have hn : gNodes [⟨0, 1, 5⟩, ⟨1, 2, 5⟩] = [0, 1, 2] := by decide
  have w01 : gWeight [⟨0, 1, 5⟩, ⟨1, 2, 5⟩] 0 1 = ((5 : ℚ) : WithTop ℚ) := by
    decide
  have w10 : gWeight [⟨0, 1, 5⟩, ⟨1, 2, 5⟩] 1 0 = ((5 : ℚ) : WithTop ℚ) := by
    decide
  have w12 : gWeight [⟨0, 1, 5⟩, ⟨1, 2, 5⟩] 1 2 = ((5 : ℚ) : WithTop ℚ) := by
    decide
  have w21 : gWeight [⟨0, 1, 5⟩, ⟨1, 2, 5⟩] 2 1 = ((5 : ℚ) : WithTop ℚ) := by
    decide
  have w02 : gWeight [⟨0, 1, 5⟩, ⟨1, 2, 5⟩] 0 2 = ⊤ := by decide
  have w20 : gWeight [⟨0, 1, 5⟩, ⟨1, 2, 5⟩] 2 0 = ⊤ := by decide
  have w00 : gWeight [⟨0, 1, 5⟩, ⟨1, 2, 5⟩] 0 0 = ⊤ := by decide
  have w11 : gWeight [⟨0, 1, 5⟩, ⟨1, 2, 5⟩] 1 1 = ⊤ := by decide
  have w22 : gWeight [⟨0, 1, 5⟩, ⟨1, 2, 5⟩] 2 2 = ⊤ := by decide
  unfold calculate_distance_matrix
  rw [hn]
  refine ⟨?_, ?_, ?_, ?_⟩ <;>
  · simp only [List.foldl, fwStep, fwInit]
    norm_num [w01, w10, w12, w21, w02, w20, w00, w11, w22,
      WithTop.top_add, WithTop.add_top, ← WithTop.coe_add,
      min_def, top_le_iff, WithTop.coe_ne_top, WithTop.coe_le_coe, le_top]
    all_goals exact_mod_cast (by norm_num : (5 : ℚ) ≤ 15)

/-! ## Theorem for the DistanceGraphResolver claim -/

/-- C1: for every edge table with the data model's nonnegative distances,
`calculate_distance_matrix` returns the all-pairs shortest-path matrix of
the undirected weighted graph built by inserting each edge bidirectionally
with later duplicates overwriting earlier ones: the diagonal is zero, the
matrix is symmetric, every entry is a lower bound on the cost of every
connecting walk and is attained by a walk whenever finite, and an entry is
the `⊤` sentinel exactly when no connecting walk exists; on the edges
`(A,B,5), (B,C,5)` the matrix has `A→C = 10`, `A→A = 0` and
`A→B = B→A = 5`. -/
theorem calculate_distance_matrix_spec (edges : List Edge)
    (hnn : ∀ e ∈ edges, 0 ≤ e.distance) :
    (∀ i ∈ gNodes edges, calculate_distance_matrix edges i i = 0) ∧
    (∀ i ∈ gNodes edges, ∀ j ∈ gNodes edges,
      calculate_distance_matrix edges i j =
        calculate_distance_matrix edges j i) ∧
    (∀ i ∈ gNodes edges, ∀ j ∈ gNodes edges, ∀ p,
      IsWalkFrom (gWeight edges) i j p →
      calculate_distance_matrix edges i j ≤ walkCost (gWeight edges) i p) ∧
    (∀ i ∈ gNodes edges, ∀ j ∈ gNodes edges,
      calculate_distance_matrix edges i j ≠ ⊤ →
      ∃ p, IsWalkFrom (gWeight edges) i j p ∧
        walkCost (gWeight edges) i p = calculate_distance_matrix edges i j) ∧
    (∀ i ∈ gNodes edges, ∀ j ∈ gNodes edges,
      (calculate_distance_matrix edges i j = ⊤ ↔
        ¬∃ p, IsWalkFrom (gWeight edges) i j p)) ∧
    (calculate_distance_matrix [⟨0, 1, 5⟩, ⟨1, 2, 5⟩] 0 2 =
        ((10 : ℚ) : WithTop ℚ) ∧
     calculate_distance_matrix [⟨0, 1, 5⟩, ⟨1, 2, 5⟩] 0 0 = 0 ∧
     calculate_distance_matrix [⟨0, 1, 5⟩, ⟨1, 2, 5⟩] 0 1 =
        ((5 : ℚ) : WithTop ℚ) ∧
     calculate_distance_matrix [⟨0, 1, 5⟩, ⟨1, 2, 5⟩] 1 0 =
        ((5 : ℚ) : WithTop ℚ)) := by
  obtain ⟨hsym, hpos, hdiag, hinit, hLB, hatt⟩ := FWInv_final edges hnn
  have hLB' : ∀ i j p, IsWalkFrom (gWeight edges) i j p →
      calculate_distance_matrix edges i j ≤ walkCost (gWeight edges) i p :=
    fun i j p hw => hLB i j p hw
      (fun x hx => walk_mem_nodes hw x (List.dropLast_subset _ hx))
  refine ⟨fun i _ => hdiag i, fun i _ j _ => hsym i j,
    fun i _ j _ p hw => hLB' i j p hw, ?_, ?_, cdm_example_eval⟩
  · intro i _ j _ hne
    rcases hatt i j with htop | ⟨p, hwp, _, hcp⟩
    · exact absurd htop hne
    · exact ⟨p, hwp, hcp⟩
  · intro i _ j _
    constructor
    · rintro htop ⟨p, hwp⟩
      have hle := hLB' i j p hwp
      rw [htop] at hle
      exact walkCost_ne_top hwp (top_le_iff.mp hle)
    · intro hnw
      by_contra hne
      rcases hatt i j with htop | ⟨p, hwp, _, _⟩
      · exact hne htop
      · exact hnw ⟨p, hwp⟩

/-- Witness for C1 on the spec's example edges, with nonnegative
distances. -/
theorem calculate_distance_matrix_spec_witness :
    (∀ e ∈ [Edge.mk 0 1 5, Edge.mk 1 2 5], 0 ≤ e.distance) ∧
    (calculate_distance_matrix [⟨0, 1, 5⟩, ⟨1, 2, 5⟩] 0 2 =
        ((10 : ℚ) : WithTop ℚ) ∧
     calculate_distance_matrix [⟨0, 1, 5⟩, ⟨1, 2, 5⟩] 0 0 = 0 ∧
     calculate_distance_matrix [⟨0, 1, 5⟩, ⟨1, 2, 5⟩] 0 1 =
        ((5 : ℚ) : WithTop ℚ) ∧
     calculate_distance_matrix [⟨0, 1, 5⟩, ⟨1, 2, 5⟩] 1 0 =
        ((5 : ℚ) : WithTop ℚ)) :=
  ⟨by decide,
   (calculate_distance_matrix_spec [Edge.mk 0 1 5, Edge.mk 1 2 5]
      (by decide)).2.2.2.2.2⟩
